import Mathlib

/-!
# Verification of the text-to-speech playback core

A shallow embedding, in Lean 4, of the speech-playback components of the
text-to-speech-app repository:

* `src/utils/textUtils.js` — `sanitizeText` and `chunkText` (the TextChunker);
* `src/services/speechService.js` — the module-level playback controller
  built on `window.speechSynthesis`;
* `src/hooks/useSpeechSynthesis.js` — the React hook controller;
* `src/utils/pdfUtils.js` — `parsePageRanges`.

JavaScript strings are modelled as `List Char`; string indices are exact
(`Nat`/`Int`).  The fractional constant `0.8` appearing in
`lastSpace > maxChunkLength * 0.8` is modelled exactly by the integer
comparison `5 * lastSpace > 4 * maxChunkLength`; for the integer values that
occur here the IEEE-double computation agrees with the exact one.

Functions whose JavaScript originals can fail to terminate (the chunking
`while` loop, the `for` loop of `parsePageRanges`) are modelled with
explicit fuel and return `Option`; `none` models divergence, and theorems
that assert divergence quantify over all fuel values.
-/

namespace TTS

/-- JavaScript strings as lists of characters. -/
abbrev Str := List Char

/-- Conversion from Lean string literals. -/
def toStr (s : String) : Str := s.data

/-- The JavaScript whitespace class: characters matched by the regex class
`\s` and removed by `String.prototype.trim` (space, tab, line terminators,
form/vertical feed, NBSP, BOM, and the Unicode space separators). -/
def isJsWs (c : Char) : Bool :=
  c = ' ' || c = '\t' || c = '\n' || c = '\r' ||
  c = Char.ofNat 0x0b || c = Char.ofNat 0x0c ||
  c = Char.ofNat 0xa0 || c = Char.ofNat 0x1680 ||
  (Char.ofNat 0x2000 ≤ c && c ≤ Char.ofNat 0x200a) ||
  c = Char.ofNat 0x2028 || c = Char.ofNat 0x2029 ||
  c = Char.ofNat 0x202f || c = Char.ofNat 0x205f ||
  c = Char.ofNat 0x3000 || c = Char.ofNat 0xfeff

/-- Whether `s` consists of whitespace only. -/
def wsOnly (s : Str) : Bool := s.all isJsWs

/-- Remove leading JavaScript whitespace. -/
def trimL (s : Str) : Str := s.dropWhile isJsWs

/-- Remove trailing JavaScript whitespace. -/
def trimR (s : Str) : Str := (s.reverse.dropWhile isJsWs).reverse

/-- JavaScript `String.prototype.trim`. -/
def trim (s : Str) : Str := trimL (trimR s)

/-- Index of the last character satisfying `p`, if any. -/
def findLastIdx (p : Char → Bool) : Str → Option Nat
  | [] => none
  | c :: rest =>
    match findLastIdx p rest with
    | some i => some (i + 1)
    | none => if p c then some 0 else none

/-- One pass of `text.replace(/\n\s*\n/g, '\n\n')` (from `sanitizeText`,
src/utils/textUtils.js line 41).  The regex engine scans left to right; at a
`'\n'` whose following whitespace run contains another `'\n'`, the (greedy,
backtracking) match extends to the **last** `'\n'` of that run, the match is
replaced by `"\n\n"`, and scanning resumes after it.  `fuel` dominates the
input length; each step consumes at least one character. -/
def replGo : Nat → Str → Str
  | 0, _ => []
  | _ + 1, [] => []
  | f + 1, c :: rest =>
    if c = '\n' then
      let run := rest.takeWhile isJsWs
      match findLastIdx (fun d => d = '\n') run with
      | some m => '\n' :: '\n' :: replGo f (rest.drop (m + 1))
      | none => c :: replGo f rest
    else c :: replGo f rest

/-- JavaScript `text.replace(/\n\s*\n/g, '\n\n')`. -/
def replaceNl (s : Str) : Str := replGo s.length s

/-- The function `sanitizeText` (src/utils/textUtils.js lines 38-42): collapse runs of
blank lines to exactly one blank line, then trim.  (The `typeof text !==
'string'` guard is outside the model: inputs are always strings.) -/
def sanitizeText (s : Str) : Str := trim (replaceNl s)

/-- Sentence-terminal marks of the chunker regex `[\.\?\!]`. -/
def isSentMark (c : Char) : Bool := c = '.' || c = '?' || c = '!'

/-- Quote characters of the chunker regex `["']`. -/
def isQuote (c : Char) : Bool := c = '"' || c = Char.ofNat 0x27

/-- Does `t` match the regex fragment `\s+["']?$` in its entirety?  Either
`t` is a non-empty run of whitespace, or it is a non-empty run of whitespace
followed by one quote character. -/
def sentTail (t : Str) : Bool :=
  (!t.isEmpty && wsOnly t) ||
  (match t.reverse with
   | q :: rest => isQuote q && !rest.isEmpty && wsOnly rest
   | [] => false)

/-- Index of the leftmost match of `/[\.\?\!]\s+["']?$/` in `w` (the regex
engine tries start positions left to right; because of the `$` anchor every
match at position `i` covers all of `w.drop i`, so the matched string is
`w.drop i`). -/
def sentMatchIdx : Str → Option Nat
  | [] => none
  | c :: rest =>
    if isSentMark c && sentTail rest then some 0
    else (sentMatchIdx rest).map (· + 1)

/-- Does the pattern `sub` occur in `s` at exactly position `i`? -/
def matchAt (s sub : Str) (i : Nat) : Bool := (s.drop i).take sub.length == sub

/-- Search loop for `indexOf`: try positions `j`, `j+1`, … -/
def iofGo (s sub : Str) : Nat → Nat → Option Nat
  | _, 0 => none
  | j, f + 1 => if matchAt s sub j then some j else iofGo s sub (j + 1) f

/-- First occurrence of `sub` in `s` at a position `≥ fr`, if any. -/
def indexOfFrom (s sub : Str) (fr : Nat) : Option Nat :=
  iofGo s sub fr (s.length + 1 - fr)

/-- JavaScript `s.indexOf(sub, fr)`: `-1` when there is no occurrence. -/
def jsIndexOf (s sub : Str) (fr : Nat) : Int :=
  match indexOfFrom s sub fr with
  | some j => (j : Int)
  | none => -1

/-- JavaScript `w.lastIndexOf(' ')`: `-1` when there is no space. -/
def jsLastSpace (w : Str) : Int :=
  match findLastIdx (fun c => c = ' ') w with
  | some i => (i : Int)
  | none => -1

/-- The break-point computation of one iteration of the `chunkText` loop
(src/utils/textUtils.js lines 69-93), for `cur` the remaining text:

* `breakPoint = -1`;
* sentence end: match `/[\.\?\!]\s+["']?$/` against the window
  `cur.substring(0, maxLen)`; on a match at index `i` with matched string
  `m`, set `breakPoint = cur.indexOf(m, i) + m.length`;
* else paragraph end: match `/\n\n/` against the window; on a match at
  index `i`, set `breakPoint = cur.indexOf('\n\n', i) + 2`;
* if `breakPoint === -1 || breakPoint > maxLen`: `breakPoint = maxLen`,
  except that the last `' '` of the window is used instead when its index
  exceeds `maxLen * 0.8` (modelled exactly as `5 * lastSpace > 4 * maxLen`;
  see the header note on `0.8`). -/
def sentBpOf (maxLen : Nat) (cur : Str) : Int :=
  match sentMatchIdx (cur.take maxLen) with
  | some i =>
    jsIndexOf cur ((cur.take maxLen).drop i) i + (((cur.take maxLen).drop i).length : Int)
  | none => -1

def natBpOf (maxLen : Nat) (cur : Str) : Int :=
  if sentBpOf maxLen cur = -1 then
    match indexOfFrom (cur.take maxLen) ['\n', '\n'] 0 with
    | some i => jsIndexOf cur ['\n', '\n'] i + 2
    | none => -1
  else sentBpOf maxLen cur

def computeBp (maxLen : Nat) (cur : Str) : Int :=
  if natBpOf maxLen cur = -1 || natBpOf maxLen cur > (maxLen : Int) then
    if jsLastSpace (cur.take maxLen) ≠ -1 &&
        5 * jsLastSpace (cur.take maxLen) > 4 * (maxLen : Int) then
      jsLastSpace (cur.take maxLen)
    else (maxLen : Int)
  else natBpOf maxLen cur

/-- The `while (currentText.length > 0)` loop of `chunkText`
(src/utils/textUtils.js lines 62-97), with explicit fuel; returns the chunks
pushed from `cur` onward, or `none` when the fuel runs out (modelling
divergence). -/
def chunkLoop (maxLen : Nat) : Nat → Str → Option (List Str)
  | 0, _ => none
  | _ + 1, [] => some []
  | f + 1, c :: rest =>
    if (c :: rest).length ≤ maxLen then some [c :: rest]
    else
      (chunkLoop maxLen f (trim ((c :: rest).drop ((computeBp maxLen (c :: rest)).toNat)))).map
        (fun tailChunks =>
          trim ((c :: rest).take ((computeBp maxLen (c :: rest)).toNat)) :: tailChunks)

/-- The function `chunkText` (src/utils/textUtils.js lines 52-99).  `if (!text) return []`;
then sanitize; a sanitized text within `maxLen` is returned as a single
(unfiltered!) chunk; otherwise the loop runs and empty chunks are filtered
out.  The fuel `length + 1` is exact: for `maxLen ≥ 1` every iteration
shortens the remaining text (`chunkText_total`), and for `maxLen = 0` the
loop never terminates on non-empty sanitized input, which the fuel model
reports as `none` (`C7` below proves divergence for every fuel value). -/
def chunkText (t : Str) (maxLen : Nat) : Option (List Str) :=
  if t.isEmpty then some []
  else if (sanitizeText t).length ≤ maxLen then some [sanitizeText t]
  else
    (chunkLoop maxLen ((sanitizeText t).length + 1) (sanitizeText t)).map
      (List.filter (fun c => c.length > 0))

/-- Number of non-whitespace characters of `s`.  `sanitizeText` preserves
this count (it only rewrites whitespace), which is how we transfer
non-emptiness of `trim t` to non-emptiness of `sanitizeText t`. -/
def countNW (s : Str) : Nat := (s.filter (fun c => !isJsWs c)).length

/-- Does `target` decompose as `w₀ ++ cs₀ ++ w₁ ++ cs₁ ++ … ++ wₙ` with every
`wᵢ` whitespace-only — i.e. does concatenating the chunks `cs` with their
original whitespace separators restored reproduce `target`?  Because every
chunk produced by `chunkText` is trimmed (begins and ends with
non-whitespace), the greedy scan below decides exactly that property. -/
def restores : List Str → Str → Bool
  | [], t => wsOnly t
  | c :: cs, t =>
    ((t.dropWhile isJsWs).take c.length == c) &&
      restores cs ((t.dropWhile isJsWs).drop c.length)

/-- First index `i` of `w` with `w[i] = w[i+1] = '\n'` (clean form of the
`/\n\n/` search used in `cleanBp`). -/
def firstNlNl : Str → Option Nat
  | [] => none
  | [_] => none
  | c :: d :: rest =>
    if c = '\n' ∧ d = '\n' then some 0
    else (firstNlNl (d :: rest)).map (· + 1)

/-- Remove one trailing quote character, if present (the optional `["']?`
of the sentence regex). -/
def stripQuote (w : Str) : Str :=
  match w.getLast? with
  | some q => if isQuote q then w.dropLast else w
  | none => w

/-- After the optional quote is stripped: does the string end with at least
one whitespace character preceded by a sentence-terminal mark? -/
def endsSentenceNQ (w1 : Str) : Bool :=
  !(w1.reverse.takeWhile isJsWs).isEmpty &&
  (match (w1.reverse.dropWhile isJsWs).head? with
   | some c => isSentMark c
   | none => false)

/-- Does the window end with a sentence-terminal mark, followed by at least
one whitespace character, followed by at most one quote?  This is the shape
the `$`-anchored regex `/[\.\?\!]\s+["']?$/` actually tests for. -/
def endsSentence (w : Str) : Bool :=
  endsSentenceNQ (stripQuote w)

/-- The fallback of `cleanBp` when the window does not end with the
sentence pattern: two past the first double newline, else the last space
when strictly beyond 80% of `maxLen`, else a hard cut at `maxLen`. -/
def cleanBpNoSent (maxLen : Nat) (w : Str) : Nat :=
  match firstNlNl w with
  | some i => i + 2
  | none =>
    match findLastIdx (fun c => c = ' ') w with
    | some ls => if 5 * ls > 4 * maxLen then ls else maxLen
    | none => maxLen

/-- The break-point rule `computeBp` actually implements, in closed form
(proved equal to `computeBp` in `C5`'s theorem): `maxLen` when the window
*ends* with mark-whitespace(-quote); else two past the first double newline;
else the last `' '` of the window when it lies strictly beyond 80% of
`maxLen`; else `maxLen`. -/
def cleanBp (maxLen : Nat) (cur : Str) : Nat :=
  if endsSentence (cur.take maxLen) then maxLen
  else cleanBpNoSent maxLen (cur.take maxLen)

/-- First index `i` of `w` such that `w[i]` is a sentence-terminal mark and
`w[i+1]` is whitespace ("a sentence-terminal mark followed by whitespace,
anywhere in the window"). -/
def firstSentMarkWs : Str → Option Nat
  | c :: d :: rest =>
    if isSentMark c && isJsWs d then some 0
    else (firstSentMarkWs (d :: rest)).map (· + 1)
  | _ => none

/-- The break-point selection rule as the claim words it ("search the first
`maxLength` characters for a sentence-terminal mark followed by whitespace;
if found, break immediately after the mark; else break after a paragraph
break (double newline) in the same window; else the last whitespace
character at or before `maxLength`, provided it lies at or beyond 80% of
`maxLength`; else hard-cut at `maxLength`").  Defined from the claim's
words only, to be compared against the source's `computeBp`. -/
def specBp (maxLen : Nat) (cur : Str) : Nat :=
  let w := cur.take maxLen
  match firstSentMarkWs w with
  | some i => i + 1
  | none =>
    match firstNlNl w with
    | some i => i + 2
    | none =>
      match findLastIdx isJsWs w with
      | some i => if 5 * i ≥ 4 * maxLen then i else maxLen
      | none => maxLen

/-! ## The speechService module (src/services/speechService.js)

The module's mutable top-level state (`utteranceQueue`, `currentUtterance`,
the six callback slots) and the `window.speechSynthesis` handle are modelled
as one record.  Engine conventions of the model:

* `speaking`/`paused` are the `synth.speaking`/`synth.paused` flags.
* `synth.cancel()` is asynchronous: it changes no flag synchronously; the
  engine later delivers a terminal event for the cancelled in-flight
  utterance (the Web Speech API fires `end`/`error` on cancelled
  utterances).  Delivering such a trailing event is the environment's move
  (`svcUttEndEvent`/`svcUttErrorEvent` below); a terminal event clears
  `speaking` and then runs the handler the source installed.
* `synth.speak(u)` from a non-speaking engine starts `u` at once
  (`speaking := true`); `processNextUtterance` only calls it in that state.

Ghost instrumentation (present only to *state* properties, never read by
the modelled control flow): each utterance carries the `gen` of the
`speak()` call that created it, the state counts `speak()` calls in
`nextGen`, logs every consumer-callback invocation in `log` (tagged with
the `gen` of the utterance whose handler fired it), and records every
utterance handed to `synth.speak` in `submitted`. -/

/-- Voice options passed to `speechService.speak` (voice, rate, pitch,
volume).  Rates etc. are stored and forwarded, never computed with, so
exact rationals model the JavaScript numbers faithfully. -/
structure VoiceOpts where
  voice : Option Nat
  rate : ℚ
  pitch : ℚ
  volume : ℚ
deriving DecidableEq

/-- A `SpeechSynthesisUtterance` built by `createUtterance`: its text and
options, plus the ghost session tag `gen`. -/
structure SUtt where
  text : Str
  opts : VoiceOpts
  gen : Nat
deriving DecidableEq

/-- Which consumer callback fired (ghost observation). -/
inductive CbKind
  | cbStart
  | cbEnd
  | cbPause
  | cbResume
  | cbBoundary
  | cbError
deriving DecidableEq

/-- One consumer-callback invocation: which callback, and the session
`gen` of the utterance (or call) that caused it. -/
structure CbEntry where
  kind : CbKind
  gen : Nat
deriving DecidableEq

/-- Which callbacks the consumer registered via `setCallbacks` (a callback
slot that is unset is skipped by the `if (cb) cb()` guards). -/
structure SvcCallbacks where
  onStart : Bool
  onEnd : Bool
  onPause : Bool
  onResume : Bool
  onBoundary : Bool
  onError : Bool
deriving DecidableEq

/-- The module state of speechService plus the engine flags and the ghost
observations. -/
structure SvcState where
  synthOk : Bool
  speaking : Bool
  paused : Bool
  queue : List SUtt
  current : Option SUtt
  cbs : SvcCallbacks
  nextGen : Nat
  log : List CbEntry
  submitted : List SUtt
deriving DecidableEq

/-- Append a consumer-callback invocation to the ghost log if the slot is
registered. -/
def fireCb (slot : Bool) (k : CbKind) (g : Nat) (st : SvcState) : SvcState :=
  if slot then { st with log := st.log ++ [⟨k, g⟩] } else st

/-- The function `processNextUtterance` (speechService.js lines 28-36): start the next
queued utterance if the engine is idle; if instead the queue is empty and
the engine is idle, fire the consumer's end callback.  `g` is the ghost
session tag of the call context (the `gen` of the utterance whose `onend`
ran, or of the `speak()` call). -/
def processNext (g : Nat) (st : SvcState) : SvcState :=
  if st.queue ≠ [] ∧ st.speaking = false then
    match st.queue with
    | u :: rest =>
      { st with queue := rest, current := some u, speaking := true,
                submitted := st.submitted ++ [u] }
    | [] => st
  else if st.queue = [] ∧ st.speaking = false then
    fireCb st.cbs.onEnd .cbEnd g st
  else st

/-- The method `speechService.speak` (lines 100-121): bail out (with the consumer's
error callback) if the engine is unavailable; otherwise cancel ongoing
speech, clear the queue, chunk the text with `chunkText(text, 200)`, queue
one utterance per chunk, and start processing. -/
def svcSpeak (text : Str) (opts : VoiceOpts) (st : SvcState) : SvcState :=
  if st.synthOk = false then fireCb st.cbs.onError .cbError st.nextGen st
  else
    processNext st.nextGen
      { st with
        queue := ((chunkText text 200).getD []).map (fun c => ⟨c, opts, st.nextGen⟩),
        current := none,
        nextGen := st.nextGen + 1 }

/-- The method `speechService.pause` (lines 126-130): `synth.pause()` only while
speaking and not paused. -/
def svcPause (st : SvcState) : SvcState :=
  if st.speaking = true ∧ st.paused = false then { st with paused := true } else st

/-- The method `speechService.resume` (lines 135-139): `synth.resume()` only while
paused. -/
def svcResume (st : SvcState) : SvcState :=
  if st.paused = true then { st with paused := false } else st

/-- The method `speechService.stop` (lines 144-151): only if the engine is speaking or
paused, cancel, clear the queue, and fire the consumer's end callback.  The
ghost tag is the current utterance's session if one is in flight. -/
def svcStop (st : SvcState) : SvcState :=
  if st.speaking = true ∨ st.paused = true then
    let g := match st.current with
      | some u => u.gen
      | none => st.nextGen
    fireCb st.cbs.onEnd .cbEnd g { st with queue := [], current := none }
  else st

/-- The method `setCallbacks` (lines 189-196): wholesale replacement of the six
callback slots. -/
def svcSetCallbacks (cbs : SvcCallbacks) (st : SvcState) : SvcState :=
  { st with cbs := cbs }

/-- Engine delivers `start` to utterance `u`: the handler installed by
`createUtterance` (line 55) forwards to the consumer's start callback. -/
def svcUttStartEvent (u : SUtt) (st : SvcState) : SvcState :=
  fireCb st.cbs.onStart .cbStart u.gen st

/-- Engine delivers the terminal `end` event for utterance `u` (possible
also as the trailing event of a cancelled utterance): the engine goes idle,
then the handler (line 59) runs `processNextUtterance`. -/
def svcUttEndEvent (u : SUtt) (st : SvcState) : SvcState :=
  processNext u.gen { st with speaking := false }

/-- Engine delivers the terminal `error` event for utterance `u` (the Web
Speech API fires this, with `error = "interrupted"`, for an in-flight
utterance killed by `synth.cancel()`): the engine goes idle, then the
handler (lines 64-72) forwards to the consumer's error callback, cancels,
clears the queue, and fires the consumer's end callback. -/
def svcUttErrorEvent (u : SUtt) (st : SvcState) : SvcState :=
  let st1 := fireCb st.cbs.onError .cbError u.gen { st with speaking := false }
  fireCb st1.cbs.onEnd .cbEnd u.gen { st1 with queue := [], current := none }

/-- Engine delivers a `boundary` event for utterance `u`: the handler (line
82) forwards to the consumer's boundary callback. -/
def svcUttBoundaryEvent (u : SUtt) (st : SvcState) : SvcState :=
  fireCb st.cbs.onBoundary .cbBoundary u.gen st

/-- The initial module state: fresh page load, engine available and idle,
no callbacks registered. -/
def svcInit : SvcState :=
  ⟨true, false, false, [], none, ⟨false, false, false, false, false, false⟩, 0, [], []⟩

/-- Speech-parameter bounds from src/utils/constants.js (lines 18-28). -/
def MIN_SPEECH_RATE : ℚ := 1/2

def MAX_SPEECH_RATE : ℚ := 2

def MIN_SPEECH_PITCH : ℚ := 0

def MAX_SPEECH_PITCH : ℚ := 2

def MIN_SPEECH_VOLUME : ℚ := 0

def MAX_SPEECH_VOLUME : ℚ := 1

/-- A consumer registration with every callback slot filled. -/
def allCbs : SvcCallbacks := ⟨true, true, true, true, true, true⟩

/-- Default voice options (rate = pitch = volume = 1, no explicit voice). -/
def defOpts : VoiceOpts := ⟨none, 1, 1, 1⟩

/-- C1 trace, step 1: `speak("Hello X")` with callbacks registered.  The
single chunk of session 0 starts playing at once. -/
def c1AfterX : SvcState := svcSpeak (toStr "Hello X") defOpts (svcSetCallbacks allCbs svcInit)

/-- Session X's in-flight utterance (equal to `c1AfterX.current`). -/
def c1X0 : SUtt := ⟨toStr "Hello X", defOpts, 0⟩

/-- C1 trace, step 2: `speak("Hello Y")` before X's chunk completes.  It
cancels the engine (asynchronously) and queues session 1's chunk; the
engine is still winding down X, so Y waits in the queue. -/
def c1AfterY : SvcState := svcSpeak (toStr "Hello Y") defOpts c1AfterX

/-- C1 trace, step 3: the engine delivers the trailing `error`
("interrupted") event for X's cancelled utterance — as both the Web Speech
API and the spec's concurrency model allow — after `speak("Hello Y")` has
returned. -/
def c1Final : SvcState := svcUttErrorEvent c1X0 c1AfterY

/-- C9 trace: out-of-range rate 99 (allowed range is [0.5, 2]). -/
def c9Opts : VoiceOpts := ⟨none, 99, 1, 1⟩

/-- C9 trace: `speak("hello")` with rate 99 from the initial state. -/
def c9St : SvcState := svcSpeak (toStr "hello") c9Opts (svcSetCallbacks allCbs svcInit)

/-! ## The useSpeechSynthesis hook (src/hooks/useSpeechSynthesis.js)

React state (`isPlaying`, `isPaused`, `charIndex`, the voice settings) plus
the engine flags, as one record.  Engine conventions as for the service
model, with one idealisation that no modelled claim depends on:
`synth.speak(u)` from an idle engine starts `u` at once (`speaking := true`
and `engineText := u.text`).  The ghost field `submitted` records every
utterance handed to `synth.speak`; `engineText` is the text the engine is
currently playing (set by `synth.speak`, cleared by terminal events). -/

/-- An utterance built by the hook's `speak` (lines 112-120): the text and
the settings captured from the hook state. -/
structure HUtt where
  text : Str
  voice : Option Nat
  pitch : ℚ
  rate : ℚ
  volume : ℚ
deriving DecidableEq

/-- Hook state: React state, engine flags, ghost observations. -/
structure HookState where
  synthOk : Bool
  pitch : ℚ
  rate : ℚ
  volume : ℚ
  selVoice : Option Nat
  isPlaying : Bool
  isPaused : Bool
  charIndex : Nat
  speaking : Bool
  paused : Bool
  engineText : Option Str
  submitted : List HUtt
deriving DecidableEq

/-- The hook's `speak(text)` (useSpeechSynthesis.js lines 92-163): if the
engine is speaking and not paused, `synth.cancel()` (asynchronous: no
synchronous flag change); **if the engine is paused, `synth.resume()` and
return — no new utterance is created**; otherwise build an utterance from
the current settings and `synth.speak` it. -/
def hookSpeak (text : Str) (st : HookState) : HookState :=
  if st.synthOk = false then st
  else
    -- lines 99-101: synth.cancel() — asynchronous, no synchronous change
    if st.paused = true then
      -- lines 104-109: just resume
      { st with paused := false, isPaused := false, isPlaying := true }
    else
      let u : HUtt := ⟨text, st.selVoice, st.pitch, st.rate, st.volume⟩
      if st.speaking = false then
        { st with speaking := true, engineText := some u.text,
                  submitted := st.submitted ++ [u] }
      else
        -- engine still busy with the cancelled utterance: u is queued
        { st with submitted := st.submitted ++ [u] }

/-- The hook's `pause()` (lines 168-174): only while speaking and not
paused; `synth.pause()` and `setIsPaused(true)`. -/
def hookPause (st : HookState) : HookState :=
  if st.speaking = true ∧ st.paused = false then
    { st with paused := true, isPaused := true }
  else st

/-- The hook's `resume()` (lines 179-186): only while paused;
`synth.resume()`, `setIsPaused(false)`, `setIsPlaying(true)`. -/
def hookResume (st : HookState) : HookState :=
  if st.paused = true then
    { st with paused := false, isPaused := false, isPlaying := true }
  else st

/-- The hook's `stop()` (lines 191-199): only if the engine is speaking or
paused; `synth.cancel()` (asynchronous), `setIsPlaying(false)`,
`setIsPaused(false)`, `setCharIndex(0)`. -/
def hookStop (st : HookState) : HookState :=
  if st.speaking = true ∨ st.paused = true then
    { st with isPlaying := false, isPaused := false, charIndex := 0 }
  else st

/-- Engine delivers `start`: the handler (lines 123-128) sets playing,
clears paused, resets `charIndex`. -/
def hEvStart (st : HookState) : HookState :=
  { st with isPlaying := true, isPaused := false, charIndex := 0 }

/-- Engine delivers the terminal `end`: the engine goes idle, then the
handler (lines 130-135) clears playing and paused and resets `charIndex`. -/
def hEvEnd (st : HookState) : HookState :=
  { st with speaking := false, engineText := none,
            isPlaying := false, isPaused := false, charIndex := 0 }

/-- Engine delivers the terminal `error`: the engine goes idle, then the
handler (lines 137-141) clears playing and paused — **`charIndex` is left
unchanged**. -/
def hEvError (st : HookState) : HookState :=
  { st with speaking := false, engineText := none,
            isPlaying := false, isPaused := false }

/-- Boundary event names delivered by the engine. -/
inductive BoundaryName
  | word
  | sentence
  | other
deriving DecidableEq

/-- Engine delivers `boundary`: the handler (lines 153-159) stores
`event.charIndex` for word/sentence boundaries. -/
def hEvBoundary (name : BoundaryName) (ci : Nat) (st : HookState) : HookState :=
  if name = .word ∨ name = .sentence then { st with charIndex := ci } else st

/-- Engine delivers `pause`: the handler (lines 143-146) sets paused. -/
def hEvPause (st : HookState) : HookState := { st with isPaused := true }

/-- Engine delivers `resume`: the handler (lines 148-151) clears paused. -/
def hEvResume (st : HookState) : HookState := { st with isPaused := false }

/-- Initial hook state: defaults of lines 33-43, engine available, idle. -/
def hookInit : HookState :=
  ⟨true, 1, 1, 1, none, false, false, 0, false, false, none, []⟩

/-- C2 trace: `speak("A")`, the engine starts it, then `pause()`. -/
def c2Paused : HookState := hookPause (hEvStart (hookSpeak (toStr "A") hookInit))

/-- C2 trace: `speak("B")` issued while paused. -/
def c2Final : HookState := hookSpeak (toStr "B") c2Paused

/-- C8 trace: `speak("Hello world")`, started, a word boundary at character
6, then an engine error — whose handler does not reset `charIndex`. -/
def c8AfterError : HookState :=
  hEvError (hEvBoundary .word 6 (hEvStart (hookSpeak (toStr "Hello world") hookInit)))

/-- C8 trace: `stop()` called in the post-error idle state. -/
def c8Final : HookState := hookStop c8AfterError

/-- A reachable state in which the engine is actively speaking. -/
def c8Playing : HookState := hEvStart (hookSpeak (toStr "x") hookInit)

/-- The progress value shown by the app.  App.jsx (bundled inside
src/src/hooks/usePDFReader.js, lines 440-441) computes
`const progress = totalTextLength > 0 ? (charIndex / totalTextLength) * 100 : 0;`
from the hook's `charIndex` and `totalTextLength = countCharacters(textToSpeak)`,
and ProgressBar (src/src/components/ProgressBar/ProgressBar.jsx line 14)
displays `Math.max(0, Math.min(100, progress))`.  `totalLen` stands for
`countCharacters(textToSpeak)`, a plain length. -/
def progressPercent (st : HookState) (totalLen : Nat) : ℚ :=
  max 0 (min 100
    (if 0 < totalLen then (st.charIndex : ℚ) / (totalLen : ℚ) * 100 else 0))

/-! ## parsePageRanges (src/utils/pdfUtils.js lines 35-58)

JavaScript `Number(part)` values are modelled as exact extended integers:
`nan`, a finite integer, or `±Infinity`.  The model parses optionally
signed decimal integer numerals and the `Infinity` literals; other numeric
literal forms (fractions, exponents, hex) are mapped to `nan` — none of the
claims' verdicts depend on them, and no arithmetic is performed on the
parsed values, so no floating-point rounding enters.  The `for` loop over a
range is modelled with an explicit iteration count; a range whose upper
endpoint is `Infinity` makes the JavaScript loop run forever, which the
model reports as `none` (divergence). -/

/-- The value of JavaScript `Number(s)`, restricted as described above. -/
inductive JsNum
  | nan
  | fin (n : Int)
  | inf
  | negInf
deriving DecidableEq

/-- Numeric value of a non-empty all-digit string. -/
def digitsVal : Str → Option Nat
  | [] => none
  | cs =>
    if cs.all (fun c => c.isDigit) then
      some (cs.foldl (fun a c => a * 10 + (c.toNat - 48)) 0)
    else none

/-- Unsigned part of a numeral: digits, or the `Infinity` literal. -/
def jsNumberPos (t : Str) : JsNum :=
  if t = toStr "Infinity" then .inf
  else match digitsVal t with
    | some n => .fin n
    | none => .nan

/-- JavaScript `Number(s)` (trim; empty → `0`; optional sign; decimal
digits or `Infinity`; otherwise `NaN` in this model). -/
def jsNumber (s : Str) : JsNum :=
  match trim s with
  | [] => .fin 0
  | '+' :: r => jsNumberPos r
  | '-' :: r =>
    match jsNumberPos r with
    | .fin n => .fin (-n)
    | .inf => .negInf
    | v => v
  | t => jsNumberPos t

/-- JavaScript `<=` on numbers: false whenever either side is `NaN`. -/
def jsLe : JsNum → JsNum → Bool
  | .nan, _ => false
  | _, .nan => false
  | .negInf, _ => true
  | _, .negInf => false
  | _, .inf => true
  | .inf, _ => false
  | .fin a, .fin b => a ≤ b

/-- JavaScript `Set.prototype.add` on a list kept in insertion order: append if not
yet present. -/
def insertUniq (l : List Int) (n : Int) : List Int :=
  if n ∈ l then l else l ++ [n]

/-- The `for (let i = start; i <= end; i++)` body: add every `i` in
`[start, end]` with `1 ≤ i ≤ total`, in ascending order. -/
def addRange (total : Int) (start : Int) (cnt : Nat) (acc : List Int) : List Int :=
  match cnt with
  | 0 => acc
  | c + 1 =>
    let acc' := if 1 ≤ start ∧ start ≤ total then insertUniq acc start else acc
    addRange total (start + 1) c acc'

/-- Split a list at every occurrence of `sep` (JavaScript
`String.prototype.split` with a single-character separator). -/
def splitOnChar (sep : Char) : Str → List Str
  | [] => [[]]
  | c :: rest =>
    let r := splitOnChar sep rest
    if c = sep then [] :: r
    else match r with
      | h :: t => (c :: h) :: t
      | [] => [[c]]

/-- Process one comma-part (pdfUtils.js lines 39-55): a dash part iterates
its range (diverging — `none` — on an infinite upper endpoint); a plain
part adds its page number when in range. -/
def ppPart (total : Int) (acc : List Int) (part : Str) : Option (List Int) :=
  if part.contains '-' then
    match splitOnChar '-' part with
    | a :: b :: _ =>
      if jsNumber a ≠ .nan ∧ jsNumber b ≠ .nan ∧ jsLe (jsNumber a) (jsNumber b) then
        match jsNumber a, jsNumber b with
        | .fin sv, .fin ev => some (addRange total sv (ev + 1 - sv).toNat acc)
        | _, _ => none  -- `i <= Infinity`: the loop never exits
      else some acc
    | _ => some acc  -- unreachable: a part containing '-' splits into ≥ 2 pieces
  else
    match jsNumber part with
    | .fin n => if 1 ≤ n ∧ n ≤ total then some (insertUniq acc n) else some acc
    | _ => some acc

/-- Insert into a `≤`-sorted list (model of the `sort((a, b) => a - b)`
call; any correct comparison sort yields the same sorted array). -/
def insSorted (n : Int) : List Int → List Int
  | [] => [n]
  | x :: xs => if n ≤ x then n :: x :: xs else x :: insSorted n xs

/-- Sort by repeated insertion. -/
def insSort (l : List Int) : List Int := l.foldr insSorted []

/-- The function `parsePageRanges(pageRangeString, totalPages)` (pdfUtils.js lines
35-58): split on commas, trim each part, collect page numbers into an
insertion-ordered set, sort ascending.  `none` models the non-terminating
executions. -/
def parsePageRanges (s : Str) (total : Int) : Option (List Int) :=
  match ((splitOnChar ',' s).map trim).foldlM (ppPart total) [] with
  | some acc => some (List.insertionSort (fun a b => a ≤ b) acc)
  | none => none

/-! ## Whitespace and trim lemmas -/

theorem mem_of_wsOnly {s : Str} (h : wsOnly s = true) {c : Char} (hc : c ∈ s) :
    isJsWs c = true := by
  exact List.all_eq_true.mp h c hc

theorem wsOnly_append {p q : Str} :
    wsOnly (p ++ q) = (wsOnly p && wsOnly q) :=
  List.all_append

theorem wsOnly_append_of {p q : Str} (hp : wsOnly p = true) (hq : wsOnly q = true) :
    wsOnly (p ++ q) = true := by
  simp [wsOnly_append, hp, hq]

theorem wsOnly_reverse {s : Str} : wsOnly s.reverse = wsOnly s := by
  simp only [wsOnly]
  rw [Bool.eq_iff_iff, List.all_eq_true, List.all_eq_true]
  constructor <;> intro h c hc
  · exact h c (List.mem_reverse.mpr hc)
  · exact h c (List.mem_reverse.mp hc)

theorem dropWhile_head_false {α : Type} {p : α → Bool} :
    ∀ {l : List α} {c : α} {rest : List α}, l.dropWhile p = c :: rest → p c = false := by
  intro l
  induction l with
  | nil => intro c rest h; simp at h
  | cons a l ih =>
    intro c rest h
    rw [List.dropWhile_cons] at h
    by_cases ha : p a = true
    · rw [if_pos ha] at h; exact ih h
    · rw [if_neg ha] at h
      cases h
      simpa using ha

theorem dropWhile_ws_nil {s : Str} (h : wsOnly s = true) :
    s.dropWhile isJsWs = [] :=
  List.dropWhile_eq_nil_iff.mpr (fun c hc => mem_of_wsOnly h hc)

theorem dropWhile_ws_append {p x : Str} (hp : wsOnly p = true) :
    (p ++ x).dropWhile isJsWs = x.dropWhile isJsWs := by
  rw [List.dropWhile_append, dropWhile_ws_nil hp]
  simp

theorem dropWhile_cons_false {α : Type} {p : α → Bool} {c : α} {x : List α}
    (h : p c = false) : (c :: x).dropWhile p = c :: x := by
  rw [List.dropWhile_cons, if_neg (by simp [h])]

theorem takeWhile_ws_append {p x : Str} (hp : wsOnly p = true) :
    (p ++ x).takeWhile isJsWs = p ++ x.takeWhile isJsWs := by
  induction p with
  | nil => simp
  | cons c p ih =>
    have hc : isJsWs c = true := mem_of_wsOnly hp (List.mem_cons_self _ _)
    have hp2 : wsOnly p = true := by
      simp only [wsOnly, List.all_cons, Bool.and_eq_true] at hp
      exact hp.2
    simp [List.takeWhile_cons, hc, ih hp2]

theorem trimL_decomp (s : Str) : s = s.takeWhile isJsWs ++ trimL s :=
  (List.takeWhile_append_dropWhile isJsWs s).symm

theorem wsOnly_takeWhile_ws (s : Str) : wsOnly (s.takeWhile isJsWs) = true :=
  List.all_eq_true.mpr (fun c hc => List.mem_takeWhile_imp hc)

theorem trimR_decomp (s : Str) : ∃ r, s = trimR s ++ r ∧ wsOnly r = true := by
  refine ⟨(s.reverse.takeWhile isJsWs).reverse, ?_, ?_⟩
  · have h2 := congrArg List.reverse (List.takeWhile_append_dropWhile isJsWs s.reverse)
    rw [List.reverse_append, List.reverse_reverse] at h2
    exact h2.symm
  · rw [wsOnly_reverse]; exact wsOnly_takeWhile_ws _

theorem trim_decomp (s : Str) :
    ∃ p r, wsOnly p = true ∧ wsOnly r = true ∧ s = p ++ trim s ++ r := by
  obtain ⟨r, hr, hwr⟩ := trimR_decomp s
  refine ⟨(trimR s).takeWhile isJsWs, r, wsOnly_takeWhile_ws _, hwr, ?_⟩
  simp only [trim]
  rw [← trimL_decomp (trimR s)]
  exact hr

theorem trim_head {s : Str} {c : Char} {rest : Str} (h : trim s = c :: rest) :
    isJsWs c = false :=
  dropWhile_head_false h

theorem trimR_eq_nil_iff {s : Str} : trimR s = [] ↔ wsOnly s = true := by
  rw [trimR, List.reverse_eq_nil_iff, List.dropWhile_eq_nil_iff, ← wsOnly_reverse]
  simp [wsOnly, List.all_eq_true]

theorem trimR_cons (c : Char) (y : Str) :
    trimR (c :: y) =
      if trimR y = [] then (if isJsWs c then [] else [c]) else c :: trimR y := by
  have hrev : (c :: y).reverse = y.reverse ++ [c] := by simp
  rw [trimR, hrev, List.dropWhile_append]
  by_cases h : y.reverse.dropWhile isJsWs = []
  · have hy : trimR y = [] := by rw [trimR, h]; rfl
    rw [if_pos (by simp [h]), if_pos hy]
    by_cases hc : isJsWs c = true
    · simp [List.dropWhile_cons, hc]
    · simp only [Bool.not_eq_true] at hc
      simp [List.dropWhile_cons, hc]
  · have hy : trimR y ≠ [] := by
      rw [trimR, ne_eq, List.reverse_eq_nil_iff]; exact h
    rw [if_neg (by simpa using h), if_neg hy, List.reverse_append]
    simp [trimR]

theorem trim_nil : trim ([] : Str) = [] := rfl

theorem trim_cons_ws {c : Char} {y : Str} (h : isJsWs c = true) :
    trim (c :: y) = trim y := by
  simp only [trim, trimR_cons]
  by_cases hy : trimR y = []
  · rw [if_pos hy, if_pos h, hy]
  · rw [if_neg hy]
    simp only [trimL, List.dropWhile_cons, if_pos h]

theorem trim_cons_nonws {c : Char} {y : Str} (h : isJsWs c = false) :
    trim (c :: y) = c :: trimR y := by
  simp only [trim, trimR_cons]
  by_cases hy : trimR y = []
  · rw [if_pos hy, if_neg (by simp [h]), hy]
    simp only [trimL, dropWhile_cons_false h]
  · rw [if_neg hy]
    simp only [trimL, dropWhile_cons_false h]

theorem trim_append_ws {p z : Str} (hp : wsOnly p = true) :
    trim (p ++ z) = trim z := by
  induction p with
  | nil => rfl
  | cons c p ih =>
    have hc : isJsWs c = true := mem_of_wsOnly hp (List.mem_cons_self _ _)
    have hp2 : wsOnly p = true := by
      simp only [wsOnly, List.all_cons, Bool.and_eq_true] at hp
      exact hp.2
    rw [List.cons_append, trim_cons_ws hc, ih hp2]

theorem trimR_append_ws {p z : Str} (hp : wsOnly p = true) :
    trimR (p ++ z) = if trimR z = [] then [] else p ++ trimR z := by
  induction p with
  | nil =>
    simp only [List.nil_append]
    by_cases hz : trimR z = [] <;> simp [hz]
  | cons c p ih =>
    have hc : isJsWs c = true := mem_of_wsOnly hp (List.mem_cons_self _ _)
    have hp2 : wsOnly p = true := by
      simp only [wsOnly, List.all_cons, Bool.and_eq_true] at hp
      exact hp.2
    rw [List.cons_append, trimR_cons, ih hp2]
    by_cases hz : trimR z = []
    · simp [hz, hc]
    · have hne : p ++ trimR z ≠ [] := by simp [hz]
      simp [hz, hne]

theorem length_trimL_le (s : Str) : (trimL s).length ≤ s.length :=
  (List.dropWhile_suffix isJsWs).length_le

theorem length_trimR_le (s : Str) : (trimR s).length ≤ s.length := by
  rw [trimR, List.length_reverse, ← List.length_reverse s]
  exact (List.dropWhile_suffix isJsWs).length_le

theorem length_trim_le (s : Str) : (trim s).length ≤ s.length :=
  le_trans (length_trimL_le (trimR s)) (length_trimR_le s)

theorem trimL_trimL (s : Str) : trimL (trimL s) = trimL s := by
  rcases h : trimL s with _ | ⟨c, rest⟩
  · rfl
  · exact dropWhile_cons_false (dropWhile_head_false h)

theorem trimR_trimR (s : Str) : trimR (trimR s) = trimR s := by
  rw [trimR, trimR, List.reverse_reverse]
  congr 1
  rcases h : s.reverse.dropWhile isJsWs with _ | ⟨c, rest⟩
  · rfl
  · exact dropWhile_cons_false (dropWhile_head_false h)

theorem trimL_cons_ws {c : Char} {y : Str} (h : isJsWs c = true) :
    trimL (c :: y) = trimL y := by
  simp only [trimL, List.dropWhile_cons, if_pos h]

theorem trimL_cons_nonws {c : Char} {y : Str} (h : isJsWs c = false) :
    trimL (c :: y) = c :: y := by
  simp only [trimL, dropWhile_cons_false h]

theorem trimL_trimR_comm (s : Str) : trimL (trimR s) = trimR (trimL s) := by
  induction s with
  | nil => rfl
  | cons c rest ih =>
    by_cases hc : isJsWs c = true
    · rw [trimR_cons, trimL_cons_ws hc]
      by_cases hr : trimR rest = []
      · rw [if_pos hr, if_pos hc, ← ih, hr]
      · rw [if_neg hr, trimL_cons_ws hc, ih]
    · replace hc : isJsWs c = false := by simpa using hc
      rw [trimR_cons]
      by_cases hr : trimR rest = []
      · rw [if_pos hr, if_neg (by simp [hc]), trimL_cons_nonws hc, trimL_cons_nonws hc,
          trimR_cons, hr]
        simp [hc]
      · rw [if_neg hr, trimL_cons_nonws hc, trimL_cons_nonws hc, trimR_cons, if_neg hr]

theorem trim_trim (s : Str) : trim (trim s) = trim s := by
  simp only [trim]
  rw [← trimL_trimR_comm (trimR s), trimR_trimR, trimL_trimL]

theorem trim_ne_nil_head {cur : Str} (htr : trim cur = cur) (hne : cur ≠ []) :
    ∃ c rest, cur = c :: rest ∧ isJsWs c = false := by
  cases cur with
  | nil => exact absurd rfl hne
  | cons c rest => exact ⟨c, rest, rfl, trim_head htr⟩

/-! ### Non-whitespace character counts -/

theorem countNW_append (p q : Str) : countNW (p ++ q) = countNW p + countNW q := by
  simp [countNW, List.filter_append]

theorem countNW_ws {p : Str} (hp : wsOnly p = true) : countNW p = 0 := by
  simp only [countNW, List.length_eq_zero]
  rw [List.filter_eq_nil_iff]
  intro c hc
  simp [mem_of_wsOnly hp hc]

theorem countNW_cons_nonws {c : Char} {y : Str} (h : isJsWs c = false) :
    countNW (c :: y) = countNW y + 1 := by
  simp [countNW, List.filter_cons, h]

theorem countNW_trim (s : Str) : countNW (trim s) = countNW s := by
  obtain ⟨p, r, hp, hr, hs⟩ := trim_decomp s
  conv_rhs => rw [hs]
  rw [countNW_append, countNW_append, countNW_ws hp, countNW_ws hr]
  omega

theorem countNW_pos_ne_nil {s : Str} (h : 0 < countNW s) : s ≠ [] := by
  intro hnil; subst hnil; simp [countNW] at h

theorem countNW_pos_of_trim_ne_nil {s : Str} (h : trim s ≠ []) : 0 < countNW s := by
  rw [← countNW_trim]
  obtain ⟨c, rest, heq, hc⟩ := trim_ne_nil_head (trim_trim s) h
  rw [heq, countNW_cons_nonws hc]
  omega

/-! ### sanitizeText lemmas: `replGo` only rewrites whitespace -/

theorem findLastIdx_lt_length {p : Char → Bool} :
    ∀ {l : Str} {i : Nat}, findLastIdx p l = some i → i < l.length := by
  intro l
  induction l with
  | nil => intro i h; simp [findLastIdx] at h
  | cons c rest ih =>
    intro i h
    rw [findLastIdx] at h
    rcases hrest : findLastIdx p rest with _ | j
    · rw [hrest] at h
      by_cases hc : p c = true
      · rw [if_pos hc] at h; cases h; simp
      · rw [if_neg hc] at h; cases h
    · rw [hrest] at h
      cases h
      have := ih hrest
      simp only [List.length_cons]
      omega

theorem take_of_takeWhile_ws {rest : Str} {k : Nat}
    (hk : k ≤ (rest.takeWhile isJsWs).length) : wsOnly (rest.take k) = true := by
  have hsplit : rest.take k = (rest.takeWhile isJsWs).take k := by
    conv_lhs => rw [← List.takeWhile_append_dropWhile isJsWs rest]
    rw [List.take_append_eq_append_take, Nat.sub_eq_zero_of_le hk, List.take_zero,
      List.append_nil]
  rw [hsplit]
  exact List.all_eq_true.mpr fun c hc =>
    List.mem_takeWhile_imp (List.take_subset _ _ hc)

theorem wsOnly_drop {s : Str} (h : wsOnly s = true) (k : Nat) :
    wsOnly (s.drop k) = true :=
  List.all_eq_true.mpr fun c hc => mem_of_wsOnly h (List.drop_subset _ _ hc)

theorem replGo_cons_nl_found {f : Nat} {rest : Str} {m : Nat}
    (hm : findLastIdx (fun d => d = '\n') (rest.takeWhile isJsWs) = some m) :
    replGo (f + 1) ('\n' :: rest) = '\n' :: '\n' :: replGo f (rest.drop (m + 1)) := by
  rw [replGo]
  simp [hm]

theorem replGo_cons_nl_none {f : Nat} {rest : Str}
    (hm : findLastIdx (fun d => d = '\n') (rest.takeWhile isJsWs) = none) :
    replGo (f + 1) ('\n' :: rest) = '\n' :: replGo f rest := by
  rw [replGo]
  simp [hm]

theorem replGo_cons_other {f : Nat} {c : Char} {rest : Str} (hc : ¬ c = '\n') :
    replGo (f + 1) (c :: rest) = c :: replGo f rest := by
  rw [replGo]
  simp [hc]

theorem replGo_wsOnly : ∀ (f : Nat) {t : Str}, wsOnly t = true → wsOnly (replGo f t) = true := by
  intro f
  induction f with
  | zero => intro t _; rfl
  | succ f ih =>
    intro t ht
    cases t with
    | nil => rfl
    | cons c rest =>
      have hc : isJsWs c = true := mem_of_wsOnly ht (List.mem_cons_self _ _)
      have hrest : wsOnly rest = true := by
        simp only [wsOnly, List.all_cons, Bool.and_eq_true] at ht
        exact ht.2
      by_cases hnl : c = '\n'
      · subst hnl
        rcases hm : findLastIdx (fun d => d = '\n') (rest.takeWhile isJsWs) with _ | m
        · rw [replGo_cons_nl_none hm]
          exact wsOnly_append_of (p := ['\n']) (by decide) (ih hrest)
        · rw [replGo_cons_nl_found hm]
          exact wsOnly_append_of (p := ['\n', '\n']) (by decide) (ih (wsOnly_drop hrest _))
      · rw [replGo_cons_other hnl]
        exact wsOnly_append_of (p := [c]) (by simp [wsOnly, hc]) (ih hrest)

theorem countNW_replGo : ∀ (f : Nat) (t : Str), t.length ≤ f →
    countNW (replGo f t) = countNW t := by
  intro f
  induction f with
  | zero =>
    intro t ht
    have hnil : t = [] := by
      cases t with
      | nil => rfl
      | cons c r => simp at ht
    subst hnil; rfl
  | succ f ih =>
    intro t ht
    cases t with
    | nil => rfl
    | cons c rest =>
      have hlen : rest.length ≤ f := by simpa using ht
      by_cases hnl : c = '\n'
      · subst hnl
        rcases hm : findLastIdx (fun d => d = '\n') (rest.takeWhile isJsWs) with _ | m
        · rw [replGo_cons_nl_none hm,
            show ('\n' :: replGo f rest : Str) = ['\n'] ++ replGo f rest from rfl,
            countNW_append, ih rest hlen,
            show ('\n' :: rest : Str) = ['\n'] ++ rest from rfl, countNW_append]
        · have hmlt : m < (rest.takeWhile isJsWs).length := findLastIdx_lt_length hm
          have hdrop : (rest.drop (m + 1)).length ≤ f := by
            have h2 := List.length_drop (m + 1) rest
            omega
          have hws : wsOnly (rest.take (m + 1)) = true :=
            take_of_takeWhile_ws (by omega)
          rw [replGo_cons_nl_found hm]
          calc countNW ('\n' :: '\n' :: replGo f (rest.drop (m + 1)))
              = countNW (['\n', '\n'] ++ replGo f (rest.drop (m + 1))) := rfl
            _ = countNW (['\n', '\n'] : Str) + countNW (replGo f (rest.drop (m + 1))) :=
                countNW_append _ _
            _ = countNW (replGo f (rest.drop (m + 1))) := by
                rw [show countNW (['\n', '\n'] : Str) = 0 from by decide]; omega
            _ = countNW (rest.drop (m + 1)) := ih _ hdrop
            _ = countNW (rest.take (m + 1)) + countNW (rest.drop (m + 1)) := by
                rw [countNW_ws hws]; omega
            _ = countNW rest := by
                rw [← countNW_append, List.take_append_drop]
            _ = countNW ('\n' :: rest) := by
                rw [show ('\n' :: rest : Str) = ['\n'] ++ rest from rfl, countNW_append,
                  show countNW (['\n'] : Str) = 0 from by decide]
                omega
      · rw [replGo_cons_other hnl,
          show (c :: replGo f rest : Str) = [c] ++ replGo f rest from rfl, countNW_append,
          ih rest hlen, show (c :: rest : Str) = [c] ++ rest from rfl, countNW_append]

theorem length_trimR_cons_nonws {c : Char} {y : Str} (h : isJsWs c = false) :
    (trimR (c :: y)).length = (trimR y).length + 1 := by
  rw [trimR_cons]
  by_cases hy : trimR y = [] <;> simp [hy, h]

theorem length_trim_cons_nonws {c : Char} {y : Str} (h : isJsWs c = false) :
    (trim (c :: y)).length = (trimR y).length + 1 := by
  rw [trim_cons_nonws h]; simp

theorem trimR_cons_ws_of_ne {c : Char} {y : Str} (hy : trimR y ≠ []) :
    trimR (c :: y) = c :: trimR y := by
  rw [trimR_cons, if_neg hy]

theorem trimR_cons_ws_of_nil {c : Char} {y : Str} (hc : isJsWs c = true)
    (hy : trimR y = []) : trimR (c :: y) = [] := by
  rw [trimR_cons, if_pos hy, if_pos hc]

/-- One whitespace-cons step of the joint `trimR`/`trim` length bound. -/
theorem ws_cons_step {c : Char} {g rest : Str} (hc : isJsWs c = true)
    (h1 : (trimR g).length ≤ (trimR rest).length)
    (h2 : (trim g).length ≤ (trim rest).length)
    (himp : wsOnly rest = true → wsOnly g = true) :
    (trimR (c :: g)).length ≤ (trimR (c :: rest)).length ∧
      (trim (c :: g)).length ≤ (trim (c :: rest)).length := by
  constructor
  · by_cases hg : trimR g = []
    · rw [trimR_cons_ws_of_nil hc hg]; simp
    · have hrest : trimR rest ≠ [] := by
        intro hnil
        exact hg (trimR_eq_nil_iff.mpr (himp (trimR_eq_nil_iff.mp hnil)))
      rw [trimR_cons_ws_of_ne hg, trimR_cons_ws_of_ne hrest]
      simpa using h1
  · rw [trim_cons_ws hc, trim_cons_ws hc]
    exact h2

/-- The pass `replGo` (blank-line collapsing) never lengthens the right-trim
or the full trim of a string: each replacement rewrites at least two
whitespace characters into exactly two. -/
theorem replGo_trim_le : ∀ (n : Nat) (t : Str), t.length ≤ n → ∀ f, t.length ≤ f →
    (trimR (replGo f t)).length ≤ (trimR t).length ∧
      (trim (replGo f t)).length ≤ (trim t).length := by
  intro n
  induction n with
  | zero =>
    intro t hn f hf
    have hnil : t = [] := by
      cases t with
      | nil => rfl
      | cons c r => simp at hn
    subst hnil
    cases f <;> simp [replGo]
  | succ n ih =>
    intro t hn f hf
    cases t with
    | nil => cases f <;> simp [replGo]
    | cons c rest =>
      cases f with
      | zero => simp at hf
      | succ f =>
        have hrn : rest.length ≤ n := by simpa using hn
        have hrf : rest.length ≤ f := by simpa using hf
        by_cases hc : isJsWs c = true
        · by_cases hnl : c = '\n'
          · subst hnl
            rcases hm : findLastIdx (fun d => d = '\n') (rest.takeWhile isJsWs) with _ | m
            · rw [replGo_cons_nl_none hm]
              exact ws_cons_step hc (ih rest hrn f hrf).1 (ih rest hrn f hrf).2
                (replGo_wsOnly f)
            · rw [replGo_cons_nl_found hm]
              have hmlt : m < (rest.takeWhile isJsWs).length := findLastIdx_lt_length hm
              have hmrest : m + 1 ≤ rest.length :=
                le_trans hmlt ((List.takeWhile_prefix isJsWs).length_le)
              have hPws : wsOnly (rest.take (m + 1)) = true :=
                take_of_takeWhile_ws (by omega)
              have hPlen : (rest.take (m + 1)).length = m + 1 := by
                rw [List.length_take]; omega
              have hPD : rest.take (m + 1) ++ rest.drop (m + 1) = rest :=
                List.take_append_drop _ _
              have hDn : (rest.drop (m + 1)).length ≤ n := by
                have := List.length_drop (m + 1) rest
                omega
              have hDf : (rest.drop (m + 1)).length ≤ f := by
                have := List.length_drop (m + 1) rest
                omega
              obtain ⟨ihR, ihT⟩ := ih (rest.drop (m + 1)) hDn f hDf
              set g := replGo f (rest.drop (m + 1)) with hg
              constructor
              · -- trimR part
                by_cases hgnil : trimR g = []
                · rw [trimR_cons_ws_of_nil (by decide)
                    (trimR_cons_ws_of_nil (by decide) hgnil)]
                  simp
                · have hd : trimR (rest.drop (m + 1)) ≠ [] := by
                    intro hnil
                    exact hgnil (trimR_eq_nil_iff.mpr
                      (replGo_wsOnly f (trimR_eq_nil_iff.mp hnil)))
                  have hin : trimR ('\n' :: g) = '\n' :: trimR g :=
                    trimR_cons_ws_of_ne hgnil
                  have hout : trimR ('\n' :: '\n' :: g) = '\n' :: trimR ('\n' :: g) :=
                    trimR_cons_ws_of_ne (by rw [hin]; simp)
                  have hrrest : trimR rest = rest.take (m + 1) ++ trimR (rest.drop (m + 1)) := by
                    conv_lhs => rw [← hPD]
                    rw [trimR_append_ws hPws, if_neg hd]
                  have hrfull : trimR ('\n' :: rest) = '\n' :: trimR rest := by
                    apply trimR_cons_ws_of_ne
                    rw [hrrest]
                    simp [hd]
                  rw [hout, hin, hrfull, hrrest]
                  simp only [List.length_cons, List.length_append, hPlen]
                  omega
              · -- trim part
                have hl : trim ('\n' :: '\n' :: g) = trim g := by
                  rw [trim_cons_ws (by decide), trim_cons_ws (by decide)]
                have hr : trim ('\n' :: rest) = trim (rest.drop (m + 1)) := by
                  rw [trim_cons_ws (by decide)]
                  conv_lhs => rw [← hPD]
                  rw [trim_append_ws hPws]
                rw [hl, hr]
                exact ihT
          · rw [replGo_cons_other hnl]
            exact ws_cons_step hc (ih rest hrn f hrf).1 (ih rest hrn f hrf).2
              (replGo_wsOnly f)
        · replace hc : isJsWs c = false := by simpa using hc
          have hnl : ¬ c = '\n' := by
            intro heq; subst heq; simp [isJsWs] at hc
          rw [replGo_cons_other hnl]
          obtain ⟨ihR, ihT⟩ := ih rest hrn f hrf
          constructor
          · rw [length_trimR_cons_nonws hc, length_trimR_cons_nonws hc]
            omega
          · rw [length_trim_cons_nonws hc, length_trim_cons_nonws hc]
            omega

/-- The sanitized text is never longer than the trimmed text. -/
theorem length_sanitize_le_trim (t : Str) :
    (sanitizeText t).length ≤ (trim t).length :=
  (replGo_trim_le t.length t le_rfl t.length le_rfl).2

/-- The sanitized text is non-empty whenever the trimmed text is. -/
theorem sanitize_ne_nil {t : Str} (h : trim t ≠ []) : sanitizeText t ≠ [] := by
  apply countNW_pos_ne_nil
  rw [sanitizeText, countNW_trim, replaceNl, countNW_replGo t.length t le_rfl]
  exact lt_of_lt_of_le (countNW_pos_of_trim_ne_nil h) le_rfl

/-- The sanitized text is a trimmed string. -/
theorem trim_sanitize (t : Str) : trim (sanitizeText t) = sanitizeText t :=
  trim_trim _

/-! ### The sentence regex matches only at the end of the window -/

theorem sentMark_not_ws {c : Char} (h : isSentMark c = true) : isJsWs c = false := by
  simp only [isSentMark, Bool.or_eq_true, decide_eq_true_eq] at h
  rcases h with (h | h) | h <;> subst h <;> decide

theorem quote_not_ws {c : Char} (h : isQuote c = true) : isJsWs c = false := by
  simp only [isQuote, Bool.or_eq_true, decide_eq_true_eq] at h
  rcases h with h | h <;> subst h <;> decide

theorem ws_not_quote {c : Char} (h : isJsWs c = true) : isQuote c = false := by
  by_contra hq
  simp only [Bool.not_eq_false] at hq
  rw [quote_not_ws hq] at h
  cases h

/-- Destructor for `sentTail`: the tail is either pure whitespace or
whitespace followed by one quote. -/
theorem sentTail_elim {T : Str} (h : sentTail T = true) :
    (T ≠ [] ∧ wsOnly T = true) ∨
      ∃ S q, T = S ++ [q] ∧ S ≠ [] ∧ wsOnly S = true ∧ isQuote q = true := by
  rw [sentTail, Bool.or_eq_true] at h
  rcases h with h | h
  · left
    rw [Bool.and_eq_true] at h
    exact ⟨by simpa using h.1, h.2⟩
  · right
    rcases hT : T.reverse with _ | ⟨q, rrest⟩
    · rw [hT] at h; cases h
    · rw [hT] at h
      simp only [Bool.and_eq_true] at h
      refine ⟨rrest.reverse, q, ?_, ?_, ?_, h.1.1⟩
      · have := congrArg List.reverse hT
        rw [List.reverse_reverse] at this
        rw [this, List.reverse_cons]
      · intro hnil
        rw [List.reverse_eq_nil_iff] at hnil
        subst hnil
        simpa using h.1.2
      · rw [wsOnly_reverse]; exact h.2

theorem sentTail_of_ws {T : Str} (h1 : T ≠ []) (h2 : wsOnly T = true) :
    sentTail T = true := by
  rw [sentTail, Bool.or_eq_true]
  left
  simp [h1, h2]

theorem sentTail_of_quote {S : Str} {q : Char} (h1 : S ≠ []) (h2 : wsOnly S = true)
    (h3 : isQuote q = true) : sentTail (S ++ [q]) = true := by
  rw [sentTail, Bool.or_eq_true]
  right
  rw [List.reverse_append]
  simp only [List.reverse_cons, List.reverse_nil, List.nil_append, List.singleton_append]
  simp [h3, wsOnly_reverse, h2, h1]

theorem stripQuote_last_not_quote {w : Str} {d : Char} (h1 : w.getLast? = some d)
    (h2 : isQuote d = false) : stripQuote w = w := by
  rw [stripQuote, h1]
  simp [h2]

theorem stripQuote_concat_quote {X : Str} {q : Char} (hq : isQuote q = true) :
    stripQuote (X ++ [q]) = X := by
  rw [stripQuote, List.getLast?_concat]
  simp [hq, List.dropLast_concat]

theorem endsSentenceNQ_shape {A S : Str} {c : Char} (hc : isSentMark c = true)
    (hS1 : S ≠ []) (hS2 : wsOnly S = true) :
    endsSentenceNQ (A ++ c :: S) = true := by
  have hrev : (A ++ c :: S).reverse = S.reverse ++ c :: A.reverse := by
    rw [List.reverse_append, List.reverse_cons, List.append_assoc, List.singleton_append]
  have hSrev : wsOnly S.reverse = true := by rw [wsOnly_reverse]; exact hS2
  rw [endsSentenceNQ, hrev, takeWhile_ws_append hSrev, dropWhile_ws_append hSrev,
    dropWhile_cons_false (sentMark_not_ws hc)]
  have htk : (S.reverse ++ (c :: A.reverse).takeWhile isJsWs) ≠ [] := by
    simp [List.reverse_eq_nil_iff, hS1]
  simp [htk, hc]

/-- A window of the matching shape ends with the sentence pattern. -/
theorem endsSentence_of_shape {A T : Str} {c : Char} (hc : isSentMark c = true)
    (hT : sentTail T = true) : endsSentence (A ++ c :: T) = true := by
  rcases sentTail_elim hT with ⟨hne, hws⟩ | ⟨S, q, rfl, hSne, hSws, hq⟩
  · -- tail is pure whitespace: the last character is whitespace, not a quote
    rw [endsSentence]
    rcases hrev : T.reverse with _ | ⟨d, ds⟩
    · rw [List.reverse_eq_nil_iff] at hrev; exact absurd hrev hne
    · have hdT : d ∈ T := by
        rw [← List.mem_reverse, hrev]; exact List.mem_cons_self _ _
      have hdws : isJsWs d = true := mem_of_wsOnly hws hdT
      have hlast : (A ++ c :: T).getLast? = some d := by
        rw [List.getLast?_eq_head?_reverse, List.reverse_append, List.reverse_cons,
          List.append_assoc, hrev]
        rfl
      rw [stripQuote_last_not_quote hlast (ws_not_quote hdws)]
      exact endsSentenceNQ_shape hc hne hws
  · -- tail is whitespace plus one quote
    rw [endsSentence]
    have hassoc : A ++ c :: (S ++ [q]) = (A ++ c :: S) ++ [q] := by
      simp
    rw [hassoc, stripQuote_concat_quote hq]
    exact endsSentenceNQ_shape hc hSne hSws

/-- A window that ends with the sentence pattern has the matching shape. -/
theorem endsSentence_shape {w : Str} (h : endsSentence w = true) :
    ∃ A c T, w = A ++ c :: T ∧ isSentMark c = true ∧ sentTail T = true := by
  rw [endsSentence] at h
  have core : ∀ w1 : Str, endsSentenceNQ w1 = true →
      ∃ A c S, w1 = A ++ c :: S ∧ isSentMark c = true ∧ S ≠ [] ∧ wsOnly S = true := by
    intro w1 h1
    rw [endsSentenceNQ, Bool.and_eq_true] at h1
    obtain ⟨htk, hmk⟩ := h1
    rcases hdrop : w1.reverse.dropWhile isJsWs with _ | ⟨c, Z⟩
    · rw [hdrop] at hmk; simp at hmk
    · rw [hdrop] at hmk
      simp only [List.head?_cons] at hmk
      have hsplit : w1.reverse.takeWhile isJsWs ++ (c :: Z) = w1.reverse := by
        rw [← hdrop]; exact List.takeWhile_append_dropWhile isJsWs w1.reverse
      have hw1 : w1 = Z.reverse ++ c :: (w1.reverse.takeWhile isJsWs).reverse := by
        have h2 := congrArg List.reverse hsplit
        rw [List.reverse_append, List.reverse_cons, List.reverse_reverse,
          List.append_assoc, List.singleton_append] at h2
        exact h2.symm
      refine ⟨Z.reverse, c, (w1.reverse.takeWhile isJsWs).reverse, hw1, hmk, ?_, ?_⟩
      · intro hnil
        rw [List.reverse_eq_nil_iff] at hnil
        rw [hnil] at htk
        simp at htk
      · rw [wsOnly_reverse]; exact wsOnly_takeWhile_ws _
  rcases hrev : w.reverse with _ | ⟨q, Z⟩
  · -- empty window: endsSentenceNQ [] is false
    have hwnil : w = [] := by rwa [List.reverse_eq_nil_iff] at hrev
    subst hwnil
    rw [show stripQuote [] = [] from rfl] at h
    simp [endsSentenceNQ] at h
  · have hw : w = Z.reverse ++ [q] := by
      have h2 := congrArg List.reverse hrev
      rw [List.reverse_reverse, List.reverse_cons] at h2
      exact h2
    have hlast : w.getLast? = some q := by
      rw [hw, List.getLast?_concat]
    by_cases hq : isQuote q = true
    · rw [hw, stripQuote_concat_quote hq] at h
      obtain ⟨A, c, S, hw1, hc, hSne, hSws⟩ := core _ h
      exact ⟨A, c, S ++ [q], by rw [hw, hw1, List.append_assoc, List.cons_append],
        hc, sentTail_of_quote hSne hSws hq⟩
    · rw [stripQuote_last_not_quote hlast (by simpa using hq)] at h
      obtain ⟨A, c, S, hw1, hc, hSne, hSws⟩ := core _ h
      exact ⟨A, c, S, hw1, hc, sentTail_of_ws hSne hSws⟩

theorem sentMatchIdx_lt {w : Str} {i : Nat} (h : sentMatchIdx w = some i) :
    i < w.length := by
  induction w generalizing i with
  | nil => simp [sentMatchIdx] at h
  | cons a rest ih =>
    rw [sentMatchIdx] at h
    by_cases hcond : (isSentMark a && sentTail rest) = true
    · rw [if_pos hcond] at h
      cases h
      simp
    · rw [if_neg hcond] at h
      rcases hr : sentMatchIdx rest with _ | j
      · rw [hr] at h; cases h
      · rw [hr] at h
        have h2 : j + 1 = i := by injection h
        have := ih hr
        simp only [List.length_cons]
        omega

theorem sentMatchIdx_shape {w : Str} {i : Nat} (h : sentMatchIdx w = some i) :
    ∃ A c T, w = A ++ c :: T ∧ isSentMark c = true ∧ sentTail T = true := by
  induction w generalizing i with
  | nil => simp [sentMatchIdx] at h
  | cons a rest ih =>
    rw [sentMatchIdx] at h
    by_cases hcond : (isSentMark a && sentTail rest) = true
    · rw [Bool.and_eq_true] at hcond
      exact ⟨[], a, rest, rfl, hcond.1, hcond.2⟩
    · rw [if_neg hcond] at h
      rcases hr : sentMatchIdx rest with _ | j
      · rw [hr] at h; cases h
      · obtain ⟨A, c, T, hw, hc, hT⟩ := ih hr
        exact ⟨a :: A, c, T, by rw [hw]; rfl, hc, hT⟩

theorem sentMatchIdx_isSome_of_shape {c : Char} {T : Str} (hc : isSentMark c = true)
    (hT : sentTail T = true) :
    ∀ A : Str, (sentMatchIdx (A ++ c :: T)).isSome = true := by
  intro A
  induction A with
  | nil =>
    rw [List.nil_append, sentMatchIdx, if_pos (by rw [Bool.and_eq_true]; exact ⟨hc, hT⟩)]
    rfl
  | cons a A ih =>
    rw [List.cons_append, sentMatchIdx]
    by_cases hcond : (isSentMark a && sentTail (A ++ c :: T)) = true
    · rw [if_pos hcond]; rfl
    · rw [if_neg hcond]
      rcases hs : sentMatchIdx (A ++ c :: T) with _ | j
      · rw [hs] at ih; cases ih
      · rfl

/-- The `$`-anchored sentence regex matches somewhere in `w` exactly when
`w` ends with mark-whitespace(-quote). -/
theorem sentMatchIdx_isSome_eq_endsSentence (w : Str) :
    (sentMatchIdx w).isSome = endsSentence w := by
  rw [Bool.eq_iff_iff]
  constructor
  · intro h
    rcases hs : sentMatchIdx w with _ | i
    · rw [hs] at h; cases h
    · obtain ⟨A, c, T, hw, hc, hT⟩ := sentMatchIdx_shape hs
      rw [hw]
      exact endsSentence_of_shape hc hT
  · intro h
    obtain ⟨A, c, T, hw, hc, hT⟩ := endsSentence_shape h
    rw [hw]
    exact sentMatchIdx_isSome_of_shape hc hT A

/-! ### indexOf lemmas -/

theorem iofGo_matchAt {s sub : Str} :
    ∀ {f j i : Nat}, iofGo s sub j f = some i → matchAt s sub i = true ∧ j ≤ i := by
  intro f
  induction f with
  | zero => intro j i h; simp [iofGo] at h
  | succ f ih =>
    intro j i h
    rw [iofGo] at h
    by_cases hm : matchAt s sub j = true
    · rw [if_pos hm] at h
      cases h
      exact ⟨hm, le_rfl⟩
    · rw [if_neg hm] at h
      obtain ⟨h1, h2⟩ := ih h
      exact ⟨h1, by omega⟩

theorem indexOfFrom_self {s sub : Str} {i : Nat} (hm : matchAt s sub i = true)
    (hle : i ≤ s.length) : indexOfFrom s sub i = some i := by
  rw [indexOfFrom]
  have hf : s.length + 1 - i = (s.length - i) + 1 := by omega
  rw [hf, iofGo, if_pos hm]

theorem iofGo_cons_shift {sub : Str} {c : Char} {s : Str} :
    ∀ {f j : Nat}, iofGo (c :: s) sub (j + 1) f = (iofGo s sub j f).map (· + 1) := by
  intro f
  induction f with
  | zero => intro j; rfl
  | succ f ih =>
    intro j
    rw [iofGo, iofGo]
    have hms : matchAt (c :: s) sub (j + 1) = matchAt s sub j := by
      rw [matchAt, matchAt, List.drop_succ_cons]
    rw [hms]
    by_cases hm : matchAt s sub j = true
    · rw [if_pos hm, if_pos hm]; rfl
    · rw [if_neg hm, if_neg hm]
      exact ih

theorem matchAt_iff {s sub : Str} {i : Nat} :
    matchAt s sub i = true ↔ (s.drop i).take sub.length = sub := by
  rw [matchAt, beq_iff_eq]

/-- The search `firstNlNl` computes the same thing as the regex search for `/\n\n/`:
the first position of a double newline. -/
theorem firstNlNl_eq (w : Str) : firstNlNl w = indexOfFrom w ['\n', '\n'] 0 := by
  induction w with
  | nil => rfl
  | cons c rest ih =>
    have hfuel : (c :: rest).length + 1 - 0 = rest.length + 1 + 1 := by simp
    rw [indexOfFrom, hfuel, iofGo]
    have hmiff : matchAt (c :: rest) ['\n', '\n'] 0 = true ↔
        ∃ rest2, rest = '\n' :: rest2 ∧ c = '\n' := by
      rw [matchAt_iff]
      rcases rest with _ | ⟨d, rest2⟩
      · simp
      · simp only [List.drop_zero, List.length_cons, List.length_nil, List.take_succ_cons,
          List.take_zero]
        constructor
        · intro h
          injection h with h1 h2
          injection h2 with h3 h4
          exact ⟨rest2, by rw [h3], h1⟩
        · rintro ⟨rest3, heq, rfl⟩
          injection heq with h1 h2
          rw [h1]

    by_cases hm : matchAt (c :: rest) ['\n', '\n'] 0 = true
    · rw [if_pos hm]
      obtain ⟨rest2, rfl, rfl⟩ := hmiff.mp hm
      rfl
    · rw [if_neg hm]
      have hfuel2 : rest.length + 1 = rest.length + 1 - 0 := by omega
      rw [iofGo_cons_shift, hfuel2, ← indexOfFrom, ← ih]
      rcases rest with _ | ⟨d, rest2⟩
      · rfl
      · rw [firstNlNl]
        rw [if_neg ?hcond]
        case hcond =>
          rintro ⟨rfl, rfl⟩
          exact hm (hmiff.mpr ⟨rest2, rfl, rfl⟩)

/-! ### Characterisation of the break-point computation -/

theorem matchAt_of_window {cur : Str} {maxLen i : Nat} (hlen : maxLen ≤ cur.length)
    (hi : i ≤ maxLen) :
    matchAt cur ((cur.take maxLen).drop i) i = true := by
  rw [matchAt_iff, List.drop_take, List.length_take, List.length_drop]
  congr 1
  omega

theorem jsIndexOf_some {s sub : Str} {fr j : Nat} (h : indexOfFrom s sub fr = some j) :
    jsIndexOf s sub fr = (j : Int) := by
  unfold jsIndexOf
  rw [h]

theorem jsLastSpace_none {w : Str} (h : findLastIdx (fun c => c = ' ') w = none) :
    jsLastSpace w = -1 := by
  unfold jsLastSpace
  rw [h]

theorem jsLastSpace_some {w : Str} {i : Nat}
    (h : findLastIdx (fun c => c = ' ') w = some i) : jsLastSpace w = (i : Int) := by
  unfold jsLastSpace
  rw [h]

theorem cleanBp_of_sent {maxLen : Nat} {cur : Str}
    (h : endsSentence (cur.take maxLen) = true) : cleanBp maxLen cur = maxLen := by
  rw [cleanBp, if_pos h]

theorem cleanBp_of_noSent {maxLen : Nat} {cur : Str}
    (h : endsSentence (cur.take maxLen) = false) :
    cleanBp maxLen cur = cleanBpNoSent maxLen (cur.take maxLen) := by
  rw [cleanBp, if_neg (by simp [h])]

theorem cleanBpNoSent_nlnl {maxLen i : Nat} {w : Str} (h : firstNlNl w = some i) :
    cleanBpNoSent maxLen w = i + 2 := by
  unfold cleanBpNoSent
  rw [h]

theorem cleanBpNoSent_ls {maxLen ls : Nat} {w : Str} (h1 : firstNlNl w = none)
    (h2 : findLastIdx (fun c => c = ' ') w = some ls) :
    cleanBpNoSent maxLen w = if 5 * ls > 4 * maxLen then ls else maxLen := by
  unfold cleanBpNoSent
  rw [h1, h2]

theorem cleanBpNoSent_hard {maxLen : Nat} {w : Str} (h1 : firstNlNl w = none)
    (h2 : findLastIdx (fun c => c = ' ') w = none) :
    cleanBpNoSent maxLen w = maxLen := by
  unfold cleanBpNoSent
  rw [h1, h2]

theorem indexOfFrom_nlnl_of_window {cur : Str} {maxLen i : Nat}
    (hlen : maxLen ≤ cur.length)
    (h : matchAt (cur.take maxLen) ['\n', '\n'] i = true) :
    matchAt cur ['\n', '\n'] i = true ∧ i + 2 ≤ maxLen := by
  rw [matchAt_iff] at h
  have hwlen : (cur.take maxLen).length = maxLen := by
    rw [List.length_take]; omega
  have hi2 : i + 2 ≤ maxLen := by
    have := congrArg List.length h
    rw [List.length_take, List.length_drop, hwlen] at this
    simp at this
    omega
  constructor
  · rw [matchAt_iff]
    rw [List.drop_take] at h
    have h2 : ((cur.drop i).take (maxLen - i)).take 2 = (cur.drop i).take 2 := by
      rw [List.take_take]
      congr 1
      omega
    rw [show (['\n', '\n'] : Str).length = 2 from rfl] at h ⊢
    rw [← h2]
    exact h
  · exact hi2

theorem sentBpOf_none {maxLen : Nat} {cur : Str}
    (hs : sentMatchIdx (cur.take maxLen) = none) : sentBpOf maxLen cur = -1 := by
  rw [sentBpOf, hs]

/-- When the sentence regex matches (necessarily at the window's end), the
source's `indexOf`-based arithmetic lands exactly on `maxLen`. -/
theorem sentBpOf_some {maxLen i : Nat} {cur : Str} (hlen : maxLen < cur.length)
    (hs : sentMatchIdx (cur.take maxLen) = some i) :
    sentBpOf maxLen cur = (maxLen : Int) := by
  have hle : maxLen ≤ cur.length := le_of_lt hlen
  have hwlen : (cur.take maxLen).length = maxLen := by
    rw [List.length_take]; omega
  have hilt : i < maxLen := hwlen ▸ sentMatchIdx_lt hs
  have hmc : matchAt cur ((cur.take maxLen).drop i) i = true :=
    matchAt_of_window hle (le_of_lt hilt)
  have hidx : indexOfFrom cur ((cur.take maxLen).drop i) i = some i :=
    indexOfFrom_self hmc (by omega)
  have hdlen : ((cur.take maxLen).drop i).length = maxLen - i := by
    rw [List.length_drop, hwlen]
  rw [sentBpOf, hs]
  show jsIndexOf cur ((cur.take maxLen).drop i) i + (((cur.take maxLen).drop i).length : Int) =
    (maxLen : Int)
  rw [jsIndexOf_some hidx, hdlen]
  push_cast [Nat.cast_sub (le_of_lt hilt)]
  ring

theorem natBpOf_sent {maxLen i : Nat} {cur : Str} (hlen : maxLen < cur.length)
    (hs : sentMatchIdx (cur.take maxLen) = some i) :
    natBpOf maxLen cur = (maxLen : Int) := by
  have h1 := sentBpOf_some hlen hs
  rw [natBpOf, h1, if_neg (by omega)]

theorem natBpOf_para {maxLen i : Nat} {cur : Str}
    (hs : sentMatchIdx (cur.take maxLen) = none)
    (hp : indexOfFrom (cur.take maxLen) ['\n', '\n'] 0 = some i)
    (hidx : indexOfFrom cur ['\n', '\n'] i = some i) :
    natBpOf maxLen cur = (i : Int) + 2 := by
  rw [natBpOf, if_pos (sentBpOf_none hs), hp]
  show jsIndexOf cur ['\n', '\n'] i + 2 = (i : Int) + 2
  rw [jsIndexOf_some hidx]

theorem natBpOf_neither {maxLen : Nat} {cur : Str}
    (hs : sentMatchIdx (cur.take maxLen) = none)
    (hp : indexOfFrom (cur.take maxLen) ['\n', '\n'] 0 = none) :
    natBpOf maxLen cur = -1 := by
  rw [natBpOf, if_pos (sentBpOf_none hs), hp]

/-- The break-point computation of the source
(`breakPoint = cur.indexOf(match, i) + match.length` etc.) equals the
closed-form rule `cleanBp`. -/
theorem computeBp_eq_cleanBp {maxLen : Nat} {cur : Str} (hlen : maxLen < cur.length) :
    computeBp maxLen cur = (cleanBp maxLen cur : Int) := by
  have hle : maxLen ≤ cur.length := le_of_lt hlen
  have hwlen : (cur.take maxLen).length = maxLen := by
    rw [List.length_take]; omega
  rcases hs : sentMatchIdx (cur.take maxLen) with _ | i
  · have hends : endsSentence (cur.take maxLen) = false := by
      rw [← sentMatchIdx_isSome_eq_endsSentence, hs]
      rfl
    rcases hp : indexOfFrom (cur.take maxLen) ['\n', '\n'] 0 with _ | i
    · -- no sentence, no paragraph: the hard-cut branch
      have hn := natBpOf_neither hs hp
      have hnl : firstNlNl (cur.take maxLen) = none := by rw [firstNlNl_eq, hp]
      have hcond1 : (natBpOf maxLen cur = -1 || natBpOf maxLen cur > (maxLen : Int)) = true := by
        rw [hn]; simp
      rw [computeBp, if_pos hcond1, cleanBp_of_noSent hends]
      rcases hls : findLastIdx (fun c => c = ' ') (cur.take maxLen) with _ | ls
      · rw [jsLastSpace_none hls, cleanBpNoSent_hard hnl hls]
        simp
      · rw [jsLastSpace_some hls, cleanBpNoSent_ls hnl hls]
        by_cases hcond : 5 * ls > 4 * maxLen
        · have hA : ((ls : Int) ≠ -1 && 5 * (ls : Int) > 4 * (maxLen : Int)) = true := by
            simp only [Bool.and_eq_true, decide_eq_true_eq, ne_eq]
            constructor <;> omega
          rw [if_pos hA, if_pos hcond]
        · have hA : ¬ (((ls : Int) ≠ -1 && 5 * (ls : Int) > 4 * (maxLen : Int)) = true) := by
            simp only [Bool.and_eq_true, decide_eq_true_eq, ne_eq]
            rintro ⟨-, h2⟩
            omega
          rw [if_neg hA, if_neg hcond]
    · -- paragraph match at i: break at i + 2
      obtain ⟨hm, -⟩ := iofGo_matchAt hp
      obtain ⟨hmc, hi2⟩ := indexOfFrom_nlnl_of_window hle hm
      have hidx : indexOfFrom cur ['\n', '\n'] i = some i :=
        indexOfFrom_self hmc (by omega)
      have hnl : firstNlNl (cur.take maxLen) = some i := by rw [firstNlNl_eq, hp]
      have hn := natBpOf_para hs hp hidx
      have hcond1 : ¬ ((natBpOf maxLen cur = -1 || natBpOf maxLen cur > (maxLen : Int)) = true) := by
        rw [hn]
        simp only [Bool.or_eq_true, decide_eq_true_eq]
        rintro (h1 | h2) <;> omega
      rw [computeBp, if_neg hcond1, hn, cleanBp_of_noSent hends, cleanBpNoSent_nlnl hnl]
      push_cast
      ring
  · -- sentence match at i: the break lands exactly at maxLen
    have hends : endsSentence (cur.take maxLen) = true := by
      rw [← sentMatchIdx_isSome_eq_endsSentence, hs]
      rfl
    have hn := natBpOf_sent hlen hs
    have hcond1 : ¬ ((natBpOf maxLen cur = -1 || natBpOf maxLen cur > (maxLen : Int)) = true) := by
      rw [hn]
      simp only [Bool.or_eq_true, decide_eq_true_eq]
      rintro (h1 | h2) <;> omega
    rw [computeBp, if_neg hcond1, hn, cleanBp_of_sent hends]

theorem firstNlNl_bound {w : Str} {i : Nat} (h : firstNlNl w = some i) :
    i + 2 ≤ w.length := by
  rw [firstNlNl_eq] at h
  obtain ⟨hm, -⟩ := iofGo_matchAt h
  rw [matchAt_iff] at hm
  have hlen := congrArg List.length hm
  rw [List.length_take, List.length_drop] at hlen
  simp at hlen
  omega

/-- The break point always lies in `[1, maxLen]` (for `maxLen ≥ 1` and a
remaining text longer than `maxLen`). -/
theorem cleanBp_bounds {maxLen : Nat} {cur : Str} (h1 : 1 ≤ maxLen)
    (hlen : maxLen < cur.length) :
    1 ≤ cleanBp maxLen cur ∧ cleanBp maxLen cur ≤ maxLen := by
  have hwlen : (cur.take maxLen).length = maxLen := by
    rw [List.length_take]; omega
  by_cases hends : endsSentence (cur.take maxLen) = true
  · rw [cleanBp_of_sent hends]
    exact ⟨h1, le_rfl⟩
  · replace hends : endsSentence (cur.take maxLen) = false := by simpa using hends
    rw [cleanBp_of_noSent hends]
    rcases hnl : firstNlNl (cur.take maxLen) with _ | i
    · rcases hls : findLastIdx (fun c => c = ' ') (cur.take maxLen) with _ | ls
      · rw [cleanBpNoSent_hard hnl hls]
        exact ⟨h1, le_rfl⟩
      · rw [cleanBpNoSent_ls hnl hls]
        have hlt : ls < maxLen := hwlen ▸ findLastIdx_lt_length hls
        by_cases hc : 5 * ls > 4 * maxLen
        · rw [if_pos hc]
          constructor <;> omega
        · rw [if_neg hc]
          exact ⟨h1, le_rfl⟩
    · rw [cleanBpNoSent_nlnl hnl]
      have := firstNlNl_bound hnl
      rw [hwlen] at this
      constructor <;> omega

/-- The value of `computeBp` cast to `Nat` is `cleanBp`. -/
theorem computeBp_toNat {maxLen : Nat} {cur : Str} (hlen : maxLen < cur.length) :
    (computeBp maxLen cur).toNat = cleanBp maxLen cur := by
  rw [computeBp_eq_cleanBp hlen]
  exact Int.toNat_natCast _

/-! ### Soundness of the chunking loop -/

theorem trim_decomp_of_head_nonws {c : Char} {t : Str} (hc : isJsWs c = false) :
    ∃ e, wsOnly e = true ∧ c :: t = trim (c :: t) ++ e ∧ trim (c :: t) ≠ [] := by
  have hR : trimR (c :: t) ≠ [] := by
    rw [ne_eq, trimR_eq_nil_iff]
    intro hws
    have := mem_of_wsOnly hws (List.mem_cons_self _ _)
    rw [hc] at this
    cases this
  obtain ⟨e, he, hew⟩ := trimR_decomp (c :: t)
  have htrim : trim (c :: t) = trimR (c :: t) := by
    rcases hRd : trimR (c :: t) with _ | ⟨d, ds⟩
    · exact absurd hRd hR
    · have hd : c = d := by
        rw [hRd] at he
        injection he
      rw [trim, hRd, trimL_cons_nonws (hd ▸ hc)]
  exact ⟨e, hew, by rw [htrim]; exact he, by rw [htrim]; exact hR⟩

theorem restores_nil_eq (t : Str) : restores [] t = wsOnly t := rfl

theorem restores_cons_eq (c : Str) (cs : List Str) (t : Str) :
    restores (c :: cs) t =
      (((t.dropWhile isJsWs).take c.length == c) &&
        restores cs ((t.dropWhile isJsWs).drop c.length)) := rfl

/-- The chunks produced by the loop are bounded by `maxLen`, non-empty, and
— interleaved with the whitespace the trims removed — reproduce the
remaining text. -/
theorem chunkLoop_sound (maxLen : Nat) (h1 : 1 ≤ maxLen) :
    ∀ (f : Nat) (cur : Str) (cs : List Str), trim cur = cur →
      chunkLoop maxLen f cur = some cs →
      ((∀ c ∈ cs, c.length ≤ maxLen ∧ c ≠ []) ∧
       ∀ p w, wsOnly p = true → wsOnly w = true →
         restores cs (p ++ (cur ++ w)) = true) := by
  intro f
  induction f with
  | zero => intro cur cs _ h; simp [chunkLoop] at h
  | succ f ih =>
    intro cur cs htr h
    cases cur with
    | nil =>
      rw [chunkLoop] at h
      injection h with h
      subst h
      refine ⟨by simp, ?_⟩
      intro p w hp hw
      rw [List.nil_append, restores_nil_eq]
      exact wsOnly_append_of hp hw
    | cons hd rest =>
      have hhd : isJsWs hd = false := trim_head htr
      rw [chunkLoop] at h
      by_cases hle : (hd :: rest).length ≤ maxLen
      · rw [if_pos hle] at h
        injection h with h
        subst h
        refine ⟨?_, ?_⟩
        · intro c hc
          simp only [List.mem_singleton] at hc
          subst hc
          exact ⟨hle, by simp⟩
        · intro p w hp hw
          rw [restores_cons_eq, dropWhile_ws_append hp,
            show ((hd :: rest) ++ w) = hd :: (rest ++ w) from rfl,
            dropWhile_cons_false hhd,
            show (hd :: (rest ++ w) : Str) = (hd :: rest) ++ w from rfl,
            List.take_left, List.drop_left]
          simp only [beq_self_eq_true, Bool.true_and]
          rw [restores_nil_eq]
          exact hw
      · rw [if_neg hle] at h
        have hlen : maxLen < (hd :: rest).length := by omega
        have hbpeq := computeBp_toNat hlen
        obtain ⟨hbp1, hbp2⟩ := cleanBp_bounds h1 hlen
        rcases hrec : chunkLoop maxLen f
            (trim ((hd :: rest).drop ((computeBp maxLen (hd :: rest)).toNat)))
          with _ | tailChunks
        · rw [hrec] at h; cases h
        · rw [hrec] at h
          injection h with h
          subst h
          obtain ⟨ihMem, ihRes⟩ := ih _ _ (trim_trim _) hrec
          -- abbreviations
          rw [hbpeq] at *
          set bp := cleanBp maxLen (hd :: rest) with hbpdef
          have hbplen : ((hd :: rest).take bp).length = bp := by
            rw [List.length_take]
            omega
          -- the chunk decomposition
          obtain ⟨bpp, hbpp⟩ : ∃ bpp, bp = bpp + 1 := ⟨bp - 1, by omega⟩
          have htk : (hd :: rest).take bp = hd :: rest.take bpp := by
            rw [hbpp, List.take_succ_cons]
          obtain ⟨e, hews, hdecomp, hne⟩ := trim_decomp_of_head_nonws
            (t := rest.take bpp) hhd
          rw [← htk] at hdecomp hne
          refine ⟨?_, ?_⟩
          · intro c hc
            rcases List.mem_cons.mp hc with hc | hc
            · subst hc
              constructor
              · calc (trim ((hd :: rest).take bp)).length
                    ≤ ((hd :: rest).take bp).length := length_trim_le _
                  _ = bp := hbplen
                  _ ≤ maxLen := hbp2
              · exact hne
            · exact ihMem c hc
          · intro p w hp hw
            rw [restores_cons_eq, dropWhile_ws_append hp,
              show ((hd :: rest) ++ w) = hd :: (rest ++ w) from rfl,
              dropWhile_cons_false hhd,
              show (hd :: (rest ++ w) : Str) = (hd :: rest) ++ w from rfl]
            -- rebuild the target around the chunk
            have hsplit : (hd :: rest) ++ w =
                trim ((hd :: rest).take bp) ++
                  (e ++ ((hd :: rest).drop bp ++ w)) := by
              conv_lhs => rw [← List.take_append_drop bp (hd :: rest), hdecomp]
              simp [List.append_assoc]
            rw [hsplit, List.take_left, List.drop_left]
            simp only [beq_self_eq_true, Bool.true_and]
            -- the remaining target is ws ++ next ++ ws
            obtain ⟨l, r, hlws, hrws, hnext⟩ := trim_decomp ((hd :: rest).drop bp)
            have htail : e ++ ((hd :: rest).drop bp ++ w) =
                (e ++ l) ++ (trim ((hd :: rest).drop bp) ++ (r ++ w)) := by
              conv_lhs => rw [hnext]
              simp [List.append_assoc]
            rw [htail]
            exact ihRes (e ++ l) (r ++ w) (wsOnly_append_of hews hlws)
              (wsOnly_append_of hrws hw)

/-- For `maxLen ≥ 1` the loop terminates: every iteration strictly shortens
the remaining text, so fuel `length + 1` suffices. -/
theorem chunkLoop_total (maxLen : Nat) (h1 : 1 ≤ maxLen) :
    ∀ (f : Nat) (cur : Str), cur.length < f → trim cur = cur →
      ∃ cs, chunkLoop maxLen f cur = some cs := by
  intro f
  induction f with
  | zero => intro cur h _; omega
  | succ f ih =>
    intro cur hf htr
    cases cur with
    | nil => exact ⟨[], by rw [chunkLoop]⟩
    | cons hd rest =>
      rw [chunkLoop]
      by_cases hle : (hd :: rest).length ≤ maxLen
      · exact ⟨[hd :: rest], by rw [if_pos hle]⟩
      · rw [if_neg hle]
        have hlen : maxLen < (hd :: rest).length := by omega
        have hbpeq := computeBp_toNat hlen
        obtain ⟨hbp1, hbp2⟩ := cleanBp_bounds h1 hlen
        have hshort : (trim ((hd :: rest).drop ((computeBp maxLen (hd :: rest)).toNat))).length < f := by
          calc (trim ((hd :: rest).drop ((computeBp maxLen (hd :: rest)).toNat))).length
              ≤ ((hd :: rest).drop ((computeBp maxLen (hd :: rest)).toNat)).length :=
                length_trim_le _
            _ = (hd :: rest).length - (computeBp maxLen (hd :: rest)).toNat :=
                List.length_drop _ _
            _ < f := by rw [hbpeq]; simp only [List.length_cons] at *; omega
        obtain ⟨cs, hcs⟩ := ih _ hshort (trim_trim _)
        exact ⟨_, by rw [hcs]; rfl⟩

/-- The check `restores` holds for a single trimmed chunk against itself. -/
theorem restores_single_trimmed {s : Str} (htr : trim s = s) :
    restores [s] s = true := by
  rcases hs : s with _ | ⟨c, r⟩
  · rfl
  · rw [← hs, restores_cons_eq]
    have hc : isJsWs c = false := trim_head (hs ▸ htr)
    rw [hs, dropWhile_cons_false hc, ← hs, List.take_length, List.drop_length]
    simp only [beq_self_eq_true, Bool.true_and, restores_nil_eq]
    rfl

/-- Combined soundness of `chunkText` for `maxLen ≥ 1`: it returns a chunk
list, every chunk is within the bound, and the chunks interleaved with
whitespace reproduce the sanitized text. -/
theorem chunkText_sound {t : Str} {maxLen : Nat} (h1 : 1 ≤ maxLen) :
    ∃ cs, chunkText t maxLen = some cs ∧ (∀ c ∈ cs, c.length ≤ maxLen) ∧
      restores cs (sanitizeText t) = true := by
  by_cases ht : t.isEmpty = true
  · refine ⟨[], by rw [chunkText, if_pos ht], by simp, ?_⟩
    have htnil : t = [] := by
      cases t with
      | nil => rfl
      | cons a l => simp at ht
    subst htnil
    rfl
  · by_cases hle : (sanitizeText t).length ≤ maxLen
    · refine ⟨[sanitizeText t], by rw [chunkText, if_neg ht, if_pos hle], ?_, ?_⟩
      · intro c hc
        simp only [List.mem_singleton] at hc
        subst hc
        exact hle
      · exact restores_single_trimmed (trim_sanitize t)
    · have hlen : maxLen < (sanitizeText t).length := by omega
      obtain ⟨cs0, hcs0⟩ := chunkLoop_total maxLen h1 ((sanitizeText t).length + 1)
        (sanitizeText t) (by omega) (trim_sanitize t)
      obtain ⟨hmem, hres⟩ := chunkLoop_sound maxLen h1 _ _ _ (trim_sanitize t) hcs0
      have hfilter : cs0.filter (fun c => c.length > 0) = cs0 := by
        rw [List.filter_eq_self]
        intro c hc
        have := (hmem c hc).2
        simp [List.length_pos, this]
      refine ⟨cs0, ?_, fun c hc => (hmem c hc).1, ?_⟩
      · rw [chunkText, if_neg ht, if_neg hle, hcs0]
        rw [Option.map_some', hfilter]
      · have := hres [] [] rfl rfl
        simpa using this

/-- Behaviour of `chunkText` when the sanitized text fits in one chunk. -/
theorem chunkText_single {t : Str} {maxLen : Nat} (hne : trim t ≠ [])
    (hlen2 : (trim t).length ≤ maxLen) :
    chunkText t maxLen = some [sanitizeText t] := by
  have ht : ¬ t.isEmpty = true := by
    cases t with
    | nil => exact absurd rfl hne
    | cons a l => simp
  rw [chunkText, if_neg ht, if_pos (le_trans (length_sanitize_le_trim t) hlen2)]

/-- With `maxLen = 0`, the loop never terminates on a non-empty trimmed
text: the break point is always `0`, so no progress is made. -/
theorem computeBp_zero (cur : Str) : computeBp 0 cur = 0 := rfl

theorem chunkLoop_zero_none : ∀ (f : Nat) (cur : Str), cur ≠ [] → trim cur = cur →
    chunkLoop 0 f cur = none := by
  intro f
  induction f with
  | zero => intro cur _ _; rfl
  | succ f ih =>
    intro cur hne htr
    cases cur with
    | nil => exact absurd rfl hne
    | cons hd rest =>
      rw [chunkLoop, if_neg (by simp)]
      rw [computeBp_zero]
      simp only [Int.toNat_zero, List.drop_zero]
      rw [htr, ih _ hne htr]
      rfl

theorem chunkText_zero_none {t : Str} (hne : sanitizeText t ≠ []) :
    chunkText t 0 = none := by
  have ht : ¬ t.isEmpty = true := by
    cases t with
    | nil => exact absurd rfl hne
    | cons a l => simp
  have hlen : ¬ (sanitizeText t).length ≤ 0 := by
    simp only [Nat.le_zero, List.length_eq_zero]
    exact hne
  rw [chunkText, if_neg ht, if_neg hlen,
    chunkLoop_zero_none _ _ hne (trim_sanitize t)]
  rfl

/-! ## Claims C3-C7: the TextChunker -/

/-- C3 (counterexample): the claim states that a whitespace-only text
chunks to the empty sequence and that a short text chunks to one chunk
equal to `trim(t)`.  Both parts fail on the code: `chunkText(" ")` returns
the single-element list `[""]` (the early return at line 56 skips the
empty-chunk filter), and `chunkText("a\n\n\nb")` returns `["a\n\nb"]` —
the sanitizer collapsed the blank-line run — which differs from
`trim("a\n\n\nb") = "a\n\n\nb"`. -/
theorem claim_C3_counterexample :
    chunkText (toStr " ") 200 = some [[]] ∧
    chunkText (toStr "a\n\n\nb") 200 = some [toStr "a\n\nb"] ∧
    toStr "a\n\nb" ≠ trim (toStr "a\n\n\nb") ∧
    trim (toStr " ") = [] ∧ toStr " " ≠ [] := by
  refine ⟨by decide, by decide, by decide, by decide, by decide⟩

/-- C3 (amended): for every text whose trimmed form is non-empty and fits
within `maxLength`, `chunkText` returns exactly one chunk, whose content is
`sanitizeText t` (the trimmed text with interior blank-line runs collapsed
to one blank line) rather than `trim t`. -/
theorem claim_C3 (t : Str) (maxLen : Nat) (h1 : trim t ≠ [])
    (h2 : (trim t).length ≤ maxLen) :
    chunkText t maxLen = some [sanitizeText t] :=
  chunkText_single h1 h2

theorem claim_C3_witness :
    trim (toStr "hello world") ≠ [] ∧ (trim (toStr "hello world")).length ≤ 200 ∧
    chunkText (toStr "hello world") 200 = some [sanitizeText (toStr "hello world")] :=
  ⟨by decide, by decide, claim_C3 (toStr "hello world") 200 (by decide) (by decide)⟩

/-- C4: for every input text and every `maxLength ≥ 1`, `chunkText`
terminates and every chunk it returns has length at most `maxLength`. -/
theorem claim_C4 (t : Str) (maxLen : Nat) (h1 : 1 ≤ maxLen) :
    ∃ cs, chunkText t maxLen = some cs ∧ ∀ c ∈ cs, c.length ≤ maxLen := by
  obtain ⟨cs, ha, hb, -⟩ := chunkText_sound (t := t) h1
  exact ⟨cs, ha, hb⟩

theorem claim_C4_witness :
    (1 : Nat) ≤ 6 ∧ ∃ cs, chunkText (toStr "AAAA. BBBB. CCCC.") 6 = some cs ∧
      ∀ c ∈ cs, c.length ≤ 6 :=
  ⟨by decide, claim_C4 (toStr "AAAA. BBBB. CCCC.") 6 (by decide)⟩

/-- C5 (counterexample): the claim's priority rule says a sentence-terminal
mark followed by whitespace *anywhere* in the window breaks immediately
after the mark; on `"Hi. Bye everyone out there!"` with `maxLength = 12`
that rule (`specBp`, defined from the claim's words) breaks after `"Hi."`
(index 3), but the code's `$`-anchored regex does not fire and the break
point is the hard cut at 12, producing the chunk `"Hi. Bye ever"`. -/
theorem claim_C5_counterexample :
    (computeBp 12 (toStr "Hi. Bye everyone out there!")).toNat ≠
      specBp 12 (toStr "Hi. Bye everyone out there!") ∧
    specBp 12 (toStr "Hi. Bye everyone out there!") = 3 ∧
    chunkText (toStr "Hi. Bye everyone out there!") 12 =
      some [toStr "Hi. Bye ever", toStr "yone out the", toStr "re!"] := by
  refine ⟨by decide, by decide, by decide⟩

/-- C5 (amended): the break-point rule the code implements is `cleanBp`:
if the window **ends** with a sentence-terminal mark followed by whitespace
and optionally one quote, break at `maxLength` exactly; else break two
past the first double newline of the window; else break at the last space
(`' '` only) of the window provided its index strictly exceeds 80% of
`maxLength`; else hard-cut at `maxLength`. -/
theorem claim_C5 (maxLen : Nat) (cur : Str) (h2 : maxLen < cur.length) :
    computeBp maxLen cur = (cleanBp maxLen cur : Int) :=
  computeBp_eq_cleanBp h2

theorem claim_C5_witness :
    12 < (toStr "Hi. Bye everyone out there!").length ∧
    computeBp 12 (toStr "Hi. Bye everyone out there!") =
      (cleanBp 12 (toStr "Hi. Bye everyone out there!") : Int) :=
  ⟨by decide, claim_C5 12 (toStr "Hi. Bye everyone out there!") (by decide)⟩

/-- C7: the claim says `maxLength ≤ 0` is rejected with an input-validation
error.  The code performs no validation at all: with `maxLength = 0` and
the text `"ab"`, every iteration of the `while` loop computes
`breakPoint = 0` and makes no progress, so the loop never terminates (for
every fuel value the fuel model returns `none`) and no error is ever
produced. -/
theorem claim_C7 :
    (∀ f : Nat, chunkLoop 0 f (sanitizeText (toStr "ab")) = none) ∧
    chunkText (toStr "ab") 0 = none :=
  ⟨fun f => chunkLoop_zero_none f _ (by decide) (by decide),
    chunkText_zero_none (by decide)⟩

/-- C6 (counterexample): on `t = "a\n\n\nb"` the single chunk produced is
`"a\n\nb"`; no whitespace separators can be interleaved around it to
reproduce `trim t = "a\n\n\nb"`, because the chunk is not a contiguous
substring of the trimmed input (the sanitizer rewrote it).  Concatenation
with separators restored reproduces `sanitizeText t`, not `trim t`. -/
theorem claim_C6_counterexample :
    chunkText (toStr "a\n\n\nb") 300 = some [toStr "a\n\nb"] ∧
    ¬ ∃ w0 w1 : Str, wsOnly w0 = true ∧ wsOnly w1 = true ∧
        w0 ++ toStr "a\n\nb" ++ w1 = trim (toStr "a\n\n\nb") := by
  constructor
  · decide
  · rintro ⟨w0, w1, hw0, hw1, heq⟩
    have htr5 : trim (toStr "a\n\n\nb") = 'a' :: toStr "\n\n\nb" := by decide
    cases w0 with
    | nil =>
      rw [List.nil_append, htr5] at heq
      have h4 := congrArg (List.take 4) heq
      rw [show (4 : Nat) = (toStr "a\n\nb").length from rfl, List.take_left] at h4
      exact absurd h4 (by decide)
    | cons c w0t =>
      rw [htr5] at heq
      simp only [List.cons_append, List.append_assoc] at heq
      have hc : c = 'a' := by injection heq
      have hmem := mem_of_wsOnly hw0 (List.mem_cons_self c w0t)
      rw [hc] at hmem
      exact absurd hmem (by decide)

/-- C6 (amended): for every text `t` and `maxLength ≥ 1`, concatenating
the returned chunks with their original whitespace separators restored
reproduces `sanitizeText t` (the trimmed text with blank-line runs
collapsed), not `trim t`. -/
theorem claim_C6 (t : Str) (maxLen : Nat) (h1 : 1 ≤ maxLen) :
    ∃ cs, chunkText t maxLen = some cs ∧ restores cs (sanitizeText t) = true := by
  obtain ⟨cs, ha, -, hc⟩ := chunkText_sound (t := t) h1
  exact ⟨cs, ha, hc⟩

theorem claim_C6_witness :
    (1 : Nat) ≤ 6 ∧ ∃ cs, chunkText (toStr "AAAA. BBBB. CCCC.") 6 = some cs ∧
      restores cs (sanitizeText (toStr "AAAA. BBBB. CCCC.")) = true :=
  ⟨by decide, claim_C6 (toStr "AAAA. BBBB. CCCC.") 6 (by decide)⟩

/-! ## Claim C10: parsePageRanges -/

theorem mem_insertUniq {l : List Int} {n m : Int} (h : m ∈ insertUniq l n) :
    m ∈ l ∨ m = n := by
  rw [insertUniq] at h
  by_cases hn : n ∈ l
  · rw [if_pos hn] at h; exact Or.inl h
  · rw [if_neg hn] at h
    rcases List.mem_append.mp h with h | h
    · exact Or.inl h
    · exact Or.inr (List.mem_singleton.mp h)

theorem nodup_insertUniq {l : List Int} {n : Int} (h : l.Nodup) :
    (insertUniq l n).Nodup := by
  rw [insertUniq]
  by_cases hn : n ∈ l
  · rw [if_pos hn]; exact h
  · rw [if_neg hn]
    simp [List.nodup_append, h, hn]

/-- The page-set invariant: no duplicates and every member in
`[1, totalPages]`. -/
def PageInv (total : Int) (acc : List Int) : Prop :=
  acc.Nodup ∧ ∀ n ∈ acc, 1 ≤ n ∧ n ≤ total

theorem insertUniq_inv {total n : Int} {acc : List Int} (hP : PageInv total acc)
    (h1 : 1 ≤ n) (h2 : n ≤ total) : PageInv total (insertUniq acc n) := by
  refine ⟨nodup_insertUniq hP.1, ?_⟩
  intro m hm
  rcases mem_insertUniq hm with hm | rfl
  · exact hP.2 m hm
  · exact ⟨h1, h2⟩

theorem addRange_inv {total : Int} :
    ∀ (cnt : Nat) (start : Int) (acc : List Int), PageInv total acc →
      PageInv total (addRange total start cnt acc) := by
  intro cnt
  induction cnt with
  | zero => intro start acc h; exact h
  | succ c ih =>
    intro start acc h
    rw [addRange]
    by_cases hc : 1 ≤ start ∧ start ≤ total
    · rw [if_pos hc]
      exact ih _ _ (insertUniq_inv h hc.1 hc.2)
    · rw [if_neg hc]
      exact ih _ _ h

theorem ppPart_inv {total : Int} {acc : List Int} {part : Str} {acc2 : List Int}
    (h : ppPart total acc part = some acc2) (hP : PageInv total acc) :
    PageInv total acc2 := by
  rw [ppPart] at h
  split at h
  · split at h
    · split at h
      · split at h
        · injection h with h; subst h
          exact addRange_inv _ _ _ hP
        · cases h
      · injection h with h; subst h
        exact hP
    · injection h with h; subst h
      exact hP
  · split at h
    · split at h
      · injection h with h; subst h
        rename_i n heq hcond
        exact insertUniq_inv hP hcond.1 hcond.2
      · injection h with h; subst h
        exact hP
    · injection h with h; subst h
      exact hP

theorem foldl_ppPart_inv {total : Int} :
    ∀ (parts : List Str) (acc res : List Int), PageInv total acc →
      parts.foldlM (ppPart total) acc = some res → PageInv total res := by
  intro parts
  induction parts with
  | nil =>
    intro acc res hP h
    injection h with h
    subst h
    exact hP
  | cons p ps ih =>
    intro acc res hP h
    rw [List.foldlM_cons] at h
    rcases hp : ppPart total acc p with _ | acc1
    · rw [hp] at h; cases h
    · rw [hp] at h
      exact ih acc1 res (ppPart_inv hp hP) h

/-- C10 (counterexample): the claim says `parsePageRanges` returns a page
array for every input string, silently ignoring malformed parts.  On
`"1-Infinity"` (with `totalPages = 3`), `Number("Infinity")` is `Infinity`,
`start <= end` holds, and the loop `for (i = 1; i <= Infinity; i++)` never
terminates — modelled as `none` — so nothing is returned at all. -/
theorem claim_C10_counterexample :
    parsePageRanges (toStr "1-Infinity") 3 = none := by decide

/-- C10 (amended): whenever `parsePageRanges` returns (no dash part has an
unbounded upper endpoint), the result is strictly ascending, duplicate-free
and every element lies in `[1, totalPages]`; malformed or out-of-range
parts are silently ignored. -/
theorem claim_C10 (s : Str) (total : Int) (l : List Int)
    (h : parsePageRanges s total = some l) :
    List.Pairwise (· < ·) l ∧ ∀ n ∈ l, 1 ≤ n ∧ n ≤ total := by
  rw [parsePageRanges] at h
  split at h
  · rename_i acc hacc
    injection h with h
    subst h
    have hinv : PageInv total acc :=
      foldl_ppPart_inv _ [] acc ⟨List.nodup_nil, by simp⟩ hacc
    have hperm := List.perm_insertionSort (fun a b => a ≤ b) acc
    have hnodup : (List.insertionSort (fun a b => a ≤ b) acc).Nodup :=
      hperm.nodup_iff.mpr hinv.1
    have hsorted : List.Pairwise (fun a b => a ≤ b)
        (List.insertionSort (fun a b => a ≤ b) acc) :=
      List.sorted_insertionSort (fun a b => a ≤ b) acc
    constructor
    · exact (hsorted.and hnodup).imp (fun hab => lt_of_le_of_ne hab.1 hab.2)
    · intro n hn
      exact hinv.2 n (hperm.mem_iff.mp hn)
  · cases h

theorem claim_C10_witness :
    List.Pairwise (· < ·) ([1, 2, 3, 5] : List Int) ∧
      ∀ n ∈ ([1, 2, 3, 5] : List Int), 1 ≤ n ∧ n ≤ 10 :=
  claim_C10 (toStr "1-3, 5, 2") 10 [1, 2, 3, 5] (by decide)

/-! ## Claims C1, C9: the speechService controller -/

theorem mem_of_head?_eq {α : Type} {l : List α} {a : α} (h : l.head? = some a) :
    a ∈ l := by
  cases l with
  | nil => simp at h
  | cons b bs =>
    injection h with h
    rw [← h]
    exact List.mem_cons_self _ _

/-- What `processNextUtterance` can do to the state: it either starts the
head of the queue (recording the submission) or only appends an end-callback
entry to the log. -/
theorem processNext_preserves (g : Nat) (st : SvcState) :
    ((processNext g st).queue = st.queue ∨ (processNext g st).queue = st.queue.tail) ∧
    ((processNext g st).current = st.current ∨
      ∃ u, st.queue.head? = some u ∧ (processNext g st).current = some u) ∧
    ((processNext g st).submitted = st.submitted ∨
      ∃ u, st.queue.head? = some u ∧
        (processNext g st).submitted = st.submitted ++ [u]) ∧
    ((processNext g st).log = st.log ∨
      (processNext g st).log = st.log ++ [⟨CbKind.cbEnd, g⟩]) := by
  rw [processNext]
  by_cases h1 : st.queue ≠ [] ∧ st.speaking = false
  · rw [if_pos h1]
    rcases hq : st.queue with _ | ⟨u, rest⟩
    · exact absurd hq h1.1
    · refine ⟨Or.inr ?_, Or.inr ⟨u, ?_, ?_⟩, Or.inr ⟨u, ?_, ?_⟩, Or.inl ?_⟩ <;>
        simp [hq]
  · rw [if_neg h1]
    by_cases h2 : st.queue = [] ∧ st.speaking = false
    · rw [if_pos h2, fireCb]
      by_cases hcb : st.cbs.onEnd = true
      · rw [if_pos hcb]
        exact ⟨Or.inl rfl, Or.inl rfl, Or.inl rfl, Or.inr rfl⟩
      · rw [if_neg hcb]
        exact ⟨Or.inl rfl, Or.inl rfl, Or.inl rfl, Or.inl rfl⟩
    · rw [if_neg h2]
      exact ⟨Or.inl rfl, Or.inl rfl, Or.inl rfl, Or.inl rfl⟩

/-- C1 (amended): `speak()` does clear the queue — after
`svcSpeak text opts st` every queued utterance, the newly started one, and
every newly submitted one belongs to the fresh session `st.nextGen`.  No
*chunk* of an earlier session is ever submitted after a new `speak()`.
(The counterexample shows this is all the code guarantees: *events* of the
cancelled session still reach the consumer, since there is no generation
filtering.) -/
theorem claim_C1 (st : SvcState) (text : Str) (opts : VoiceOpts)
    (h : st.synthOk = true) :
    (∀ u ∈ (svcSpeak text opts st).queue, u.gen = st.nextGen) ∧
    (∀ u, (svcSpeak text opts st).current = some u → u.gen = st.nextGen) ∧
    (∀ u ∈ (svcSpeak text opts st).submitted.drop st.submitted.length,
      u.gen = st.nextGen) := by
  rw [svcSpeak, if_neg (by simp [h])]
  have hgen : ∀ u ∈ ((chunkText text 200).getD []).map
      (fun c => (⟨c, opts, st.nextGen⟩ : SUtt)), u.gen = st.nextGen := by
    intro u hu
    obtain ⟨c, -, rfl⟩ := List.mem_map.mp hu
    rfl
  obtain ⟨hq, hc, hsub, -⟩ := processNext_preserves st.nextGen
    { st with
      queue := ((chunkText text 200).getD []).map (fun c => ⟨c, opts, st.nextGen⟩),
      current := none,
      nextGen := st.nextGen + 1 }
  refine ⟨?_, ?_, ?_⟩
  · intro u hu
    rcases hq with hq | hq <;> rw [hq] at hu <;>
      dsimp only at hu
    · exact hgen u hu
    · exact hgen u (List.tail_subset _ hu)
  · intro u hu
    rcases hc with hc | ⟨v, hv1, hv2⟩
    · rw [hc] at hu
      dsimp only at hu
      cases hu
    · rw [hv2] at hu
      injection hu with hu
      cases hu
      dsimp only at hv1
      exact hgen _ (mem_of_head?_eq hv1)
  · intro u hu
    rcases hsub with hs | ⟨v, hv1, hv2⟩
    · rw [hs] at hu
      dsimp only at hu
      simp at hu
    · rw [hv2] at hu
      dsimp only at hu hv1
      rw [List.drop_left] at hu
      rcases List.mem_singleton.mp hu with rfl
      exact hgen _ (mem_of_head?_eq hv1)

theorem claim_C1_witness :
    svcInit.synthOk = true ∧
    ((∀ u ∈ (svcSpeak (toStr "Hello X") defOpts svcInit).queue, u.gen = svcInit.nextGen) ∧
     (∀ u, (svcSpeak (toStr "Hello X") defOpts svcInit).current = some u →
        u.gen = svcInit.nextGen) ∧
     (∀ u ∈ (svcSpeak (toStr "Hello X") defOpts svcInit).submitted.drop
        svcInit.submitted.length, u.gen = svcInit.nextGen)) :=
  ⟨rfl, claim_C1 svcInit (toStr "Hello X") defOpts rfl⟩

/-- C1 (counterexample): `speak(X)` immediately followed by `speak(Y)`
before X's chunk completes.  X's utterance (session 0) is the in-flight
one; `speak(Y)` queues session 1 and no consumer callback has fired yet.
The engine then delivers the trailing `error` event for X's cancelled
utterance — allowed after `speak(Y)`, since cancellation is asynchronous —
and the source's handler forwards it straight to the consumer: the
consumer's `onError` and `onEnd` fire with events originating from session
X (gen 0 ≠ 1), and session Y's queued chunk is even destroyed.  The claim
that no X-event is ever delivered after `speak(Y)` is false. -/
theorem claim_C1_counterexample :
    c1AfterX.current = some c1X0 ∧
    c1AfterY.queue = [⟨toStr "Hello Y", defOpts, 1⟩] ∧
    c1AfterY.log = [] ∧
    c1Final.log = [⟨CbKind.cbError, 0⟩, ⟨CbKind.cbEnd, 0⟩] ∧
    c1Final.queue = [] ∧ (0 : Nat) ≠ 1 := by
  refine ⟨by decide, by decide, by decide, by decide, by decide, by decide⟩

/-- C9 (amended): `speak()` performs no validation of the voice
parameters: whatever rate/pitch/volume are passed — in range or not — are
carried unchanged on every queued and every newly submitted utterance, and
no error callback is fired by the call (when the engine is available). -/
theorem claim_C9 (st : SvcState) (text : Str) (opts : VoiceOpts)
    (h : st.synthOk = true) :
    (∀ u ∈ (svcSpeak text opts st).queue, u.opts = opts) ∧
    (∀ u ∈ (svcSpeak text opts st).submitted.drop st.submitted.length,
      u.opts = opts) ∧
    (∀ e ∈ (svcSpeak text opts st).log.drop st.log.length,
      e.kind ≠ CbKind.cbError) := by
  rw [svcSpeak, if_neg (by simp [h])]
  have hopts : ∀ u ∈ ((chunkText text 200).getD []).map
      (fun c => (⟨c, opts, st.nextGen⟩ : SUtt)), u.opts = opts := by
    intro u hu
    obtain ⟨c, -, rfl⟩ := List.mem_map.mp hu
    rfl
  obtain ⟨hq, -, hsub, hlog⟩ := processNext_preserves st.nextGen
    { st with
      queue := ((chunkText text 200).getD []).map (fun c => ⟨c, opts, st.nextGen⟩),
      current := none,
      nextGen := st.nextGen + 1 }
  refine ⟨?_, ?_, ?_⟩
  · intro u hu
    rcases hq with hq | hq <;> rw [hq] at hu <;> dsimp only at hu
    · exact hopts u hu
    · exact hopts u (List.tail_subset _ hu)
  · intro u hu
    rcases hsub with hs | ⟨v, hv1, hv2⟩
    · rw [hs] at hu
      dsimp only at hu
      simp at hu
    · rw [hv2] at hu
      dsimp only at hu hv1
      rw [List.drop_left] at hu
      rcases List.mem_singleton.mp hu with rfl
      exact hopts _ (mem_of_head?_eq hv1)
  · intro e he
    rcases hlog with hl | hl <;> rw [hl] at he <;> dsimp only at he
    · simp at he
    · rw [List.drop_left] at he
      rcases List.mem_singleton.mp he with rfl
      simp

theorem claim_C9_witness :
    svcInit.synthOk = true ∧
    ((∀ u ∈ (svcSpeak (toStr "hi") c9Opts svcInit).queue, u.opts = c9Opts) ∧
     (∀ u ∈ (svcSpeak (toStr "hi") c9Opts svcInit).submitted.drop
        svcInit.submitted.length, u.opts = c9Opts) ∧
     (∀ e ∈ (svcSpeak (toStr "hi") c9Opts svcInit).log.drop svcInit.log.length,
        e.kind ≠ CbKind.cbError)) :=
  ⟨rfl, claim_C9 svcInit (toStr "hi") c9Opts rfl⟩

/-- C9 (counterexample): rate 99 lies far outside `[MIN_SPEECH_RATE,
MAX_SPEECH_RATE] = [0.5, 2]`, yet `speak("hello")` is not rejected: the
text is chunked, an utterance carrying rate 99 is handed to
`synth.speak`, and no error of any kind is surfaced — contradicting the
claim that the call fails synchronously before chunking with nothing
submitted. -/
theorem claim_C9_counterexample :
    ¬ (MIN_SPEECH_RATE ≤ c9Opts.rate ∧ c9Opts.rate ≤ MAX_SPEECH_RATE) ∧
    c9St.submitted = [⟨toStr "hello", c9Opts, 0⟩] ∧
    c9St.current = some ⟨toStr "hello", c9Opts, 0⟩ ∧
    c9St.log = [] := by
  refine ⟨?_, by decide, by decide, by decide⟩
  rw [MIN_SPEECH_RATE, MAX_SPEECH_RATE, show c9Opts.rate = 99 from rfl]
  norm_num

/-! ## Claims C2, C8: the useSpeechSynthesis hook -/

/-- C2 (amended): `speak(text)` called while the engine is paused only
resumes the paused session: the engine is unpaused and the React flags
updated, but no cancellation happens, no utterance is created, and the new
text (and the current voice settings) are ignored. -/
theorem claim_C2 (st : HookState) (text : Str) (h1 : st.synthOk = true)
    (h2 : st.paused = true) :
    hookSpeak text st = { st with paused := false, isPaused := false, isPlaying := true } := by
  rw [hookSpeak, if_neg (by simp [h1]), if_pos h2]

theorem claim_C2_witness :
    hookSpeak (toStr "B") c2Paused =
      { c2Paused with paused := false, isPaused := false, isPlaying := true } :=
  claim_C2 c2Paused (toStr "B") (by decide) (by decide)

/-- C2 (counterexample): after `speak("A")`, engine start, and `pause()`,
the hook is paused.  `speak("B")` then leaves the engine playing utterance
`"A"`: the submission log still holds only the `"A"` utterance — no
utterance with text `"B"` is ever created or submitted — refuting the
claim that the paused session is cancelled and a new session with the new
text is started. -/
theorem claim_C2_counterexample :
    c2Paused.paused = true ∧ c2Paused.isPaused = true ∧
    c2Final.submitted.map HUtt.text = [toStr "A"] ∧
    c2Final.engineText = some (toStr "A") ∧
    c2Final.isPlaying = true ∧ c2Final.isPaused = false := by
  refine ⟨by decide, by decide, by decide, by decide, by decide, by decide⟩

/-- C8 (amended): `stop()` resets the status to Idle and the progress to 0
only when the engine is speaking or paused; in an engine-idle state the
guard makes `stop()` a complete no-op (the counterexample shows a
reachable idle state with non-zero progress that `stop()` fails to
clear). -/
theorem claim_C8 (st : HookState) (h : st.speaking = true ∨ st.paused = true) :
    (hookStop st).isPlaying = false ∧ (hookStop st).isPaused = false ∧
    (hookStop st).charIndex = 0 ∧
    ∀ total : Nat, progressPercent (hookStop st) total = 0 := by
  rw [hookStop, if_pos h]
  refine ⟨rfl, rfl, rfl, ?_⟩
  intro total
  rw [progressPercent]
  split <;> norm_num

theorem claim_C8_witness :
    (hookStop c8Playing).isPlaying = false ∧ (hookStop c8Playing).isPaused = false ∧
    (hookStop c8Playing).charIndex = 0 ∧
    ∀ total : Nat, progressPercent (hookStop c8Playing) total = 0 :=
  claim_C8 c8Playing (Or.inl (by decide))

/-- C8 (counterexample): a session that dies with an engine error after a
word boundary at character 6 leaves the controller Idle (`isPlaying =
isPaused = false`, engine idle) with `charIndex = 6`, because the error
handler does not reset progress.  `stop()` in this reachable state is a
no-op (`c8Final = c8AfterError`), so the progress percentage remains
6/11 · 100 ≠ 0 — refuting the claim that `stop()` from *every* state
yields progress 0. -/
theorem claim_C8_counterexample :
    c8AfterError.isPlaying = false ∧ c8AfterError.isPaused = false ∧
    c8AfterError.speaking = false ∧ c8AfterError.paused = false ∧
    c8Final = c8AfterError ∧ c8Final.charIndex = 6 ∧
    progressPercent c8Final 11 ≠ 0 := by
  refine ⟨by decide, by decide, by decide, by decide, by decide, by decide, ?_⟩
  rw [progressPercent, show c8Final.charIndex = 6 from by decide]
  norm_num

end TTS
